import Mathlib

/-!
Shallow embedding of the `mappo` LRU engine (arena-based intrusive list with a
concurrent key→slot index, per `LRU[K, V]` and its methods).  Machine `int64`
values (slot indices, sizes, `UnixNano` instants) are modelled as `Int`; the
concurrent index is modelled as an association list with `Load`/`Store`/`Delete`
semantics; each operation that reads the wall clock takes an explicit `now`
argument.  Operations that may invoke the eviction callback additionally return
the list of `(key, value)` pairs the callback is invoked with (empty when no
callback is configured).  The unbounded eviction loops of the source are
modelled with explicit fuel; the fuel chosen (`size`, resp. pool length) is
provably sufficient on well-formed states, where the loop exits by its own
condition before the fuel runs out.
-/

set_option linter.unusedSectionVars false
set_option linter.unnecessarySimpa false

namespace Mappo

/-- Arena node, mirroring `lruNode[K, V]`: key, value, expiration
(`UnixNano`, 0 = no expiration), `prev`/`next` slot indices (-1 = none). -/
structure lruNode (K V : Type) where
  key : K
  value : V
  expiration : Int
  prev : Int
  next : Int
  deriving Repr, DecidableEq

instance {K V : Type} [Inhabited K] [Inhabited V] : Inhabited (lruNode K V) :=
  ⟨⟨default, default, 0, -1, -1⟩⟩

/-- The LRU engine state, mirroring `LRU[K, V]`.  `poolCap` is the fixed
capacity of the backing array allotted by `make([]lruNode[K,V], 0, maxSize)`
at construction; `onEv` records whether an eviction callback is configured. -/
structure LRU (K V : Type) where
  maxSize : Int
  defaultTTL : Int
  onEv : Bool
  m : List (K × Int)
  head : Int
  tail : Int
  freeList : Int
  nodePool : List (lruNode K V)
  poolCap : Nat
  size : Int
  deriving Repr

variable {K V : Type} [DecidableEq K] [Inhabited K] [Inhabited V]

/-- `xsync.MapOf.Load`: first matching entry. -/
def mLoad (m : List (K × Int)) (k : K) : Option Int :=
  match m with
  | [] => none
  | p :: rest => if p.1 = k then some p.2 else mLoad rest k

/-- `xsync.MapOf.Delete`: drop all entries for the key. -/
def mDelete (m : List (K × Int)) (k : K) : List (K × Int) :=
  match m with
  | [] => []
  | p :: rest => if p.1 = k then mDelete rest k else p :: mDelete rest k

/-- `xsync.MapOf.Store`: bind the key to the index. -/
def mStore (m : List (K × Int)) (k : K) (i : Int) : List (K × Int) :=
  (k, i) :: mDelete m k

/-- Read slot `i` of the pool (`l.nodePool[i]`); well-formed callers stay in
bounds, out-of-range reads return a dummy node. -/
def getN (pool : List (lruNode K V)) (i : Int) : lruNode K V :=
  if 0 ≤ i then pool.getD i.toNat default else pool.getD 0 default

/-- Write slot `i` of the pool. -/
def setN (pool : List (lruNode K V)) (i : Int) (n : lruNode K V) :
    List (lruNode K V) :=
  if 0 ≤ i then pool.set i.toNat n else pool

/-- `NewLRUWithConfig`: non-positive `MaxSize` is replaced by 1000; the pool is
allocated empty with capacity `maxSize`. -/
def NewLRUWithConfig (maxSize ttl : Int) (onEv : Bool) : LRU K V :=
  let ms := if maxSize ≤ 0 then 1000 else maxSize
  { maxSize := ms, defaultTTL := ttl, onEv := onEv, m := [], head := -1,
    tail := -1, freeList := -1, nodePool := [], poolCap := ms.toNat, size := 0 }

/-- `NewLRU`. -/
def NewLRU (maxSize : Int) : LRU K V := NewLRUWithConfig maxSize 0 false

/-- `acquireNode`: pop the free list if non-empty, else append a fresh slot
unless the backing array is at capacity (then signal -1). -/
def acquireNode (l : LRU K V) : LRU K V × Int :=
  if 0 ≤ l.freeList then
    let idx := l.freeList
    let node := getN l.nodePool idx
    ({ l with
       freeList := node.next,
       nodePool := (setN l.nodePool idx
         { node with prev := -1, next := -1, expiration := 0 }) }, idx)
  else
    let idx : Int := l.nodePool.length
    if (l.poolCap : Int) ≤ idx then (l, -1)
    else
      ({ l with nodePool := l.nodePool ++
          [{ key := default, value := default, expiration := 0,
             prev := -1, next := -1 }] }, idx)

/-- `releaseNode`: zero the slot and push it on the free list. -/
def releaseNode (l : LRU K V) (idx : Int) : LRU K V :=
  if idx < 0 ∨ (l.nodePool.length : Int) ≤ idx then l
  else
    { l with
      nodePool := (setN l.nodePool idx
        { key := default, value := default, expiration := 0,
          prev := -1, next := l.freeList }),
      freeList := idx }

/-- `addToFront`. -/
def addToFront (l : LRU K V) (idx : Int) : LRU K V :=
  let h := l.head
  let l1 := { l with nodePool := (setN l.nodePool idx
      { getN l.nodePool idx with prev := -1, next := h }) }
  let l2 :=
    if 0 ≤ h then
      { l1 with nodePool := (setN l1.nodePool h
          { getN l1.nodePool h with prev := idx }) }
    else { l1 with tail := idx }
  { l2 with head := idx }

/-- `removeFromList`; the source mutates through a pointer into the pool, so
each field is re-read from the current pool exactly as the source would. -/
def removeFromList (l : LRU K V) (idx : Int) : LRU K V :=
  let node0 := getN l.nodePool idx
  let l1 :=
    if 0 ≤ node0.prev then
      { l with nodePool := (setN l.nodePool node0.prev
          { getN l.nodePool node0.prev with next := node0.next }) }
    else { l with head := node0.next }
  let node1 := getN l1.nodePool idx
  let l2 :=
    if 0 ≤ node1.next then
      { l1 with nodePool := (setN l1.nodePool node1.next
          { getN l1.nodePool node1.next with prev := node1.prev }) }
    else { l1 with tail := node1.prev }
  let node2 := getN l2.nodePool idx
  { l2 with nodePool := (setN l2.nodePool idx
      { node2 with prev := -1, next := -1 }) }

/-- `moveToFront`. -/
def moveToFront (l : LRU K V) (idx : Int) : LRU K V :=
  addToFront (removeFromList l idx) idx

/-- `evictBack`: unlink the tail, delete its key from the index, release the
slot, decrement the size.  The source reads the returned key/value through the
node pointer after `releaseNode` has zeroed the slot, so the returned pair is
read from the post-release pool. -/
def evictBack (l : LRU K V) : LRU K V × K × V × Bool :=
  if l.tail < 0 then (l, default, default, false)
  else
    let idx := l.tail
    let l1 := removeFromList l idx
    let l2 := { l1 with m := mDelete l1.m (getN l1.nodePool idx).key }
    let l3 := releaseNode l2 idx
    let l4 := { l3 with size := l3.size - 1 }
    (l4, (getN l4.nodePool idx).key, (getN l4.nodePool idx).value, true)

/-- The `for int(l.size.Load()) >= l.maxSize` eviction loop of `SetWithTTL` /
`GetOrSet`, with fuel; also collects the callback invocations. -/
def evictLoop : Nat → LRU K V → LRU K V × List (K × V)
  | 0, l => (l, [])
  | fuel + 1, l =>
    if l.maxSize ≤ l.size then
      let r := evictBack l
      let evs := if l.onEv then [(r.2.1, r.2.2.1)] else []
      let rest := evictLoop fuel r.1
      (rest.1, evs ++ rest.2)
    else (l, [])

/-- The insertion tail of `SetWithTTL` (evict to capacity, acquire a slot,
populate it, store the index entry, push to front, bump the size). -/
def setInsert (l : LRU K V) (key : K) (value : V) (exp : Int) :
    LRU K V × List (K × V) :=
  let el := evictLoop l.size.toNat l
  let an := acquireNode el.1
  if an.2 < 0 then (an.1, el.2)
  else
    let l2 := an.1
    let idx := an.2
    let node := getN l2.nodePool idx
    let l3 := { l2 with nodePool := (setN l2.nodePool idx
        { node with key := key, value := value, expiration := exp }) }
    let l4 := { l3 with m := mStore l3.m key idx }
    let l5 := addToFront l4 idx
    ({ l5 with size := l5.size + 1 }, el.2)

/-- `SetWithTTL`. -/
def SetWithTTL (l : LRU K V) (key : K) (value : V) (ttl now : Int) :
    LRU K V × List (K × V) :=
  let exp := if 0 < ttl then now + ttl else 0
  match mLoad l.m key with
  | some idx =>
    if 0 ≤ idx ∧ idx < (l.nodePool.length : Int) then
      let node := getN l.nodePool idx
      if node.key = key then
        let l1 := { l with nodePool := (setN l.nodePool idx
            { node with value := value, expiration := exp }) }
        (moveToFront l1 idx, [])
      else setInsert l key value exp
    else setInsert l key value exp
  | none => setInsert l key value exp

/-- `Set`. -/
def Set (l : LRU K V) (key : K) (value : V) (now : Int) :
    LRU K V × List (K × V) :=
  SetWithTTL l key value l.defaultTTL now

/-- `Get`. -/
def Get (l : LRU K V) (key : K) (now : Int) : LRU K V × V × Bool :=
  match mLoad l.m key with
  | none => (l, default, false)
  | some idx =>
    if idx < 0 ∨ (l.nodePool.length : Int) ≤ idx then (l, default, false)
    else
      let node := getN l.nodePool idx
      if node.key ≠ key then (l, default, false)
      else if 0 < node.expiration ∧ node.expiration < now then
        let l1 := removeFromList l idx
        let l2 := { l1 with m := mDelete l1.m key }
        let l3 := releaseNode l2 idx
        ({ l3 with size := l3.size - 1 }, default, false)
      else (moveToFront l idx, node.value, true)

/-- `Peek` (no reordering, and no removal of stale entries: the expired branch
returns not-found leaving the state untouched). -/
def Peek (l : LRU K V) (key : K) (now : Int) : V × Bool :=
  match mLoad l.m key with
  | none => (default, false)
  | some idx =>
    if idx < 0 ∨ (l.nodePool.length : Int) ≤ idx then (default, false)
    else
      let node := getN l.nodePool idx
      if node.key ≠ key then (default, false)
      else if 0 < node.expiration ∧ node.expiration < now then (default, false)
      else (node.value, true)

/-- `Delete`. -/
def Delete (l : LRU K V) (key : K) : LRU K V × Bool :=
  match mLoad l.m key with
  | none => (l, false)
  | some idx =>
    if idx < 0 ∨ (l.nodePool.length : Int) ≤ idx ∨
        (getN l.nodePool idx).key ≠ key then (l, false)
    else
      let l1 := { l with m := mDelete l.m key }
      let l2 := removeFromList l1 idx
      let l3 := releaseNode l2 idx
      ({ l3 with size := l3.size - 1 }, true)

/-- `Has`. -/
def Has (l : LRU K V) (key : K) (now : Int) : Bool :=
  (Peek l key now).2

/-- `Len`. -/
def Len (l : LRU K V) : Int := l.size

/-- `Clear`: ranges over the index firing the callback, then resets index,
pool (truncated, capacity kept), sentinels and size. -/
def Clear (l : LRU K V) : LRU K V × List (K × V) :=
  let evs :=
    if l.onEv then
      l.m.filterMap (fun p =>
        if 0 ≤ p.2 ∧ p.2 < (l.nodePool.length : Int) then
          some ((getN l.nodePool p.2).key, (getN l.nodePool p.2).value)
        else none)
    else []
  ({ l with
     m := [], nodePool := [], head := -1, tail := -1, freeList := -1,
     size := 0 }, evs)

/-- The traversal of `Keys`, with fuel. -/
def keysWalk (l : LRU K V) (now : Int) : Nat → Int → List K
  | 0, _ => []
  | fuel + 1, idx =>
    if idx < 0 then []
    else if (l.nodePool.length : Int) ≤ idx then []
    else
      let node := getN l.nodePool idx
      if node.expiration = 0 ∨ now < node.expiration then
        node.key :: keysWalk l now fuel node.next
      else keysWalk l now fuel node.next

/-- `Keys`. -/
def Keys (l : LRU K V) (now : Int) : List K :=
  keysWalk l now (l.nodePool.length + 1) l.head

/-- The traversal of `Values`, with fuel. -/
def valuesWalk (l : LRU K V) (now : Int) : Nat → Int → List V
  | 0, _ => []
  | fuel + 1, idx =>
    if idx < 0 then []
    else if (l.nodePool.length : Int) ≤ idx then []
    else
      let node := getN l.nodePool idx
      if node.expiration = 0 ∨ now < node.expiration then
        node.value :: valuesWalk l now fuel node.next
      else valuesWalk l now fuel node.next

/-- `Values`. -/
def Values (l : LRU K V) (now : Int) : List V :=
  valuesWalk l now (l.nodePool.length + 1) l.head

/-- The traversal of `ForEach`, with fuel, returning the `(key, value)` pairs
the callback is invoked with (stopping after the first `false`). -/
def forEachWalk (l : LRU K V) (fn : K → V → Bool) (now : Int) :
    Nat → Int → List (K × V)
  | 0, _ => []
  | fuel + 1, idx =>
    if idx < 0 then []
    else if (l.nodePool.length : Int) ≤ idx then []
    else
      let node := getN l.nodePool idx
      let nextIdx := node.next
      if node.expiration = 0 ∨ now < node.expiration then
        if fn node.key node.value then
          (node.key, node.value) :: forEachWalk l fn now fuel nextIdx
        else [(node.key, node.value)]
      else forEachWalk l fn now fuel nextIdx

/-- `ForEach`, as the list of visited pairs (the state is untouched). -/
def ForEach (l : LRU K V) (fn : K → V → Bool) (now : Int) : List (K × V) :=
  forEachWalk l fn now (l.nodePool.length + 1) l.head

/-- The insertion tail of `GetOrSet` (same as `setInsert` except the source
pushes to front before storing the index entry). -/
def getOrSetMiss (l : LRU K V) (key : K) (value : V) (exp : Int) :
    LRU K V × V × Bool × List (K × V) :=
  let el := evictLoop l.size.toNat l
  let an := acquireNode el.1
  if an.2 < 0 then (an.1, default, false, el.2)
  else
    let l2 := an.1
    let idx := an.2
    let node := getN l2.nodePool idx
    let l3 := { l2 with nodePool := (setN l2.nodePool idx
        { node with key := key, value := value, expiration := exp }) }
    let l4 := addToFront l3 idx
    let l5 := { l4 with m := mStore l4.m key idx }
    ({ l5 with size := l5.size + 1 }, value, false, el.2)

/-- `GetOrSet`. -/
def GetOrSet (l : LRU K V) (key : K) (value : V) (ttl now : Int) :
    LRU K V × V × Bool × List (K × V) :=
  let g := Get l key now
  if g.2.2 then (g.1, g.2.1, true, [])
  else
    let l0 := g.1
    let exp := if 0 < ttl then now + ttl else 0
    match mLoad l0.m key with
    | some idx =>
      if 0 ≤ idx ∧ idx < (l0.nodePool.length : Int) then
        let node := getN l0.nodePool idx
        if node.key = key ∧ (node.expiration = 0 ∨ now ≤ node.expiration) then
          (moveToFront l0 idx, node.value, true, [])
        else
          let l1 := removeFromList l0 idx
          let l2 := releaseNode l1 idx
          getOrSetMiss { l2 with size := l2.size - 1 } key value exp
      else getOrSetMiss l0 key value exp
    | none => getOrSetMiss l0 key value exp

/-- `GetOrCompute`; the compute closure is modelled by its result
`(fnVal, fnTtl)`. -/
def GetOrCompute (l : LRU K V) (key : K) (fnVal : V) (fnTtl now : Int) :
    LRU K V × V × List (K × V) :=
  let g := Get l key now
  if g.2.2 then (g.1, g.2.1, [])
  else
    let r := GetOrSet g.1 key fnVal fnTtl now
    (r.1, r.2.1, r.2.2.2)

/-- The `for int(l.size.Load()) > maxSize` loop of `Resize`, with fuel. -/
def resizeLoop : Nat → LRU K V → LRU K V × List (K × V)
  | 0, l => (l, [])
  | fuel + 1, l =>
    if l.maxSize < l.size then
      let r := evictBack l
      let evs := if l.onEv then [(r.2.1, r.2.2.1)] else []
      let rest := resizeLoop fuel r.1
      (rest.1, evs ++ rest.2)
    else (l, [])

/-- `Resize`. -/
def Resize (l : LRU K V) (maxSize : Int) : LRU K V × List (K × V) :=
  let ms := if maxSize ≤ 0 then 1000 else maxSize
  resizeLoop l.size.toNat { l with maxSize := ms }

/-- The walk of `PurgeExpired`, with fuel; returns the state, the removed
count and the callback invocations (read from the slot after release, exactly
as the source does). -/
def purgeLoop (now : Int) : Nat → LRU K V → Int → LRU K V × Int × List (K × V)
  | 0, l, _ => (l, 0, [])
  | fuel + 1, l, idx =>
    if idx < 0 then (l, 0, [])
    else if (l.nodePool.length : Int) ≤ idx then (l, 0, [])
    else
      let node := getN l.nodePool idx
      let nextIdx := node.next
      if 0 < node.expiration ∧ node.expiration < now then
        let l1 := { l with m := mDelete l.m node.key }
        let l2 := removeFromList l1 idx
        let l3 := releaseNode l2 idx
        let l4 := { l3 with size := l3.size - 1 }
        let evs := if l4.onEv then
            [((getN l4.nodePool idx).key, (getN l4.nodePool idx).value)]
          else []
        let rest := purgeLoop now fuel l4 nextIdx
        (rest.1, rest.2.1 + 1, evs ++ rest.2.2)
      else purgeLoop now fuel l nextIdx

/-- `PurgeExpired`. -/
def PurgeExpired (l : LRU K V) (now : Int) : LRU K V × Int × List (K × V) :=
  purgeLoop now (l.nodePool.length + 1) l l.head

/-! ### Pool access helpers -/

/-- Read slot `j` (a genuine `Nat` index) of the pool. -/
def getNat (pool : List (lruNode K V)) (j : Nat) : lruNode K V :=
  pool.getD j default

/-! ### Chain (intrusive list) predicates -/

/-- The head of an index list as an `Int` slot id, or the default sentinel. -/
def headOr (c : List Nat) (d : Int) : Int :=
  match c with
  | [] => d
  | a :: _ => (a : Int)

/-- The last element of an index list as an `Int` slot id, or the sentinel. -/
def lastOr (c : List Nat) (d : Int) : Int :=
  match c with
  | [] => d
  | [a] => (a : Int)
  | _ :: b :: rest => lastOr (b :: rest) d

/-- Doubly-linked list segment: the slots of `c` are consecutively linked,
the first slot's `prev` is `pr`, and the last slot's `next` is `nx`. -/
def lseg (pool : List (lruNode K V)) : Int → List Nat → Int → Prop
  | _, [], _ => True
  | pr, a :: rest, nx =>
    (getNat pool a).prev = pr ∧ (getNat pool a).next = headOr rest nx ∧
      lseg pool (a : Int) rest nx

/-- Singly-linked free-list segment threaded through `next`, ending at -1. -/
def fseg (pool : List (lruNode K V)) : List Nat → Prop
  | [] => True
  | a :: rest => (getNat pool a).next = headOr rest (-1) ∧ fseg pool rest

/-! ### The structural invariant -/

/-- `l` is a well-formed engine state whose recency chain holds exactly the
slots of `c` (most- to least-recent) and whose free list holds exactly the
slots of `f`: together they partition the allocated pool, the doubly linked
chain and the singly linked free list are consistent with `head`/`tail`/
`freeList`, `size` counts the chain, and the index is in bijection with the
chain. -/
structure Represents (l : LRU K V) (c f : List Nat) : Prop where
  hperm : (c ++ f).Perm (List.range l.nodePool.length)
  hchain : lseg l.nodePool (-1) c (-1)
  hhead : l.head = headOr c (-1)
  htail : l.tail = lastOr c (-1)
  hfree : fseg l.nodePool f
  hfleft : l.freeList = headOr f (-1)
  hsize : l.size = (c.length : Int)
  hmap1 : ∀ p ∈ l.m, ∃ j ∈ c, (j : Int) = p.2 ∧ (getNat l.nodePool j).key = p.1
  hmap2 : ∀ j ∈ c, mLoad l.m (getNat l.nodePool j).key = some (j : Int)

/-- Equality of the data fields (key, value, expiration) of two nodes. -/
def sameData (n n' : lruNode K V) : Prop :=
  n.key = n'.key ∧ n.value = n'.value ∧ n.expiration = n'.expiration

/-- Proof scaffold: the common "populate slot, store index entry, push to
front, bump size" tail shared by `setInsert` and `getOrSetMiss` (whose two
index-store/push orders produce the same state). -/
def fillStoreAdd (la : LRU K V) (w : Nat) (key : K) (value : V) (exp : Int) :
    LRU K V :=
  let l3 := { la with nodePool := (setN la.nodePool (w : Int)
      { getN la.nodePool (w : Int) with
        key := key, value := value, expiration := exp }) }
  let l4 := { l3 with m := mStore l3.m key (w : Int) }
  let l5 := addToFront l4 (w : Int)
  { l5 with size := l5.size + 1 }

/-- The common shape of a successful insertion: the acquired slot `w` carries
the new entry at the front of the chain, the index got `key ↦ w` on top of
`mPre`, the size counts the new chain, the configuration is untouched, and
no other slot's data changed (relative to `l0`). -/
def InsertOutcome (l0 res : LRU K V) (mPre : List (K × Int))
    (cK fK : List Nat) (w : Nat) (key : K) (value : V) (exp : Int) : Prop :=
  Represents res (w :: cK) fK ∧
  res.m = mStore mPre key (w : Int) ∧
  res.size = (cK.length : Int) + 1 ∧
  res.maxSize = l0.maxSize ∧
  res.defaultTTL = l0.defaultTTL ∧
  res.onEv = l0.onEv ∧
  res.poolCap = l0.poolCap ∧
  (res.nodePool.length = l0.nodePool.length ∨
    (res.nodePool.length = l0.nodePool.length + 1 ∧
      l0.nodePool.length < l0.poolCap)) ∧
  (getNat res.nodePool w).key = key ∧
  (getNat res.nodePool w).value = value ∧
  (getNat res.nodePool w).expiration = exp ∧
  (∀ a, a ≠ w → sameData (getNat res.nodePool a) (getNat l0.nodePool a))

/-- Proof scaffold: unlink a slot, overwrite the index, release the slot,
decrement the size — the removal sequence shared by `Get` (lazy expiry),
`Delete` and `PurgeExpired` (which differ only in when the index delete
happens, an order that does not affect the final state). -/
def removeRelease (l : LRU K V) (idx : Int) (M : List (K × Int)) : LRU K V :=
  let l1 := removeFromList l idx
  let l2 := { l1 with m := M }
  let l3 := releaseNode l2 idx
  { l3 with size := l3.size - 1 }

/-! ### The operation-level invariant -/

/-- The reachable-state invariant: some chain/free-list pair represents the
state, the (possibly substituted) capacity is positive, and the live count
never exceeds it. -/
def Inv (l : LRU K V) : Prop :=
  (∃ c f, Represents l c f) ∧ 1 ≤ l.maxSize ∧ l.size ≤ l.maxSize

/-- One public operation step from `l` to `s`: the invariant holds again and
the configuration is untouched (pool growth stays under the cap bound). -/
def Preserves (l s : LRU K V) : Prop :=
  Inv s ∧ s.maxSize = l.maxSize ∧ s.defaultTTL = l.defaultTTL ∧
  s.onEv = l.onEv ∧ s.poolCap = l.poolCap ∧
  s.nodePool.length ≤ max l.nodePool.length l.poolCap

/-- The keep-predicate of `PurgeExpired`: `true` when the slot is *not*
expired at `now`. -/
def purgeKeep (pool : List (lruNode K V)) (now : Int) (j : Nat) : Bool :=
  decide (¬(0 < (getNat pool j).expiration ∧
    (getNat pool j).expiration < now))

/-! ### Reachability -/

/-- States reachable from a constructor call by the public state-changing
operations. -/
inductive Reach : LRU K V → Prop where
  | base : ∀ (maxSize ttl : Int) (onEv : Bool),
      Reach (NewLRUWithConfig maxSize ttl onEv)
  | step_set : ∀ (l : LRU K V) (key : K) (value : V) (now : Int),
      Reach l → Reach (Set l key value now).1
  | step_setWithTTL : ∀ (l : LRU K V) (key : K) (value : V) (ttl now : Int),
      Reach l → Reach (SetWithTTL l key value ttl now).1
  | step_get : ∀ (l : LRU K V) (key : K) (now : Int),
      Reach l → Reach (Get l key now).1
  | step_getOrSet : ∀ (l : LRU K V) (key : K) (value : V) (ttl now : Int),
      Reach l → Reach (GetOrSet l key value ttl now).1
  | step_getOrCompute : ∀ (l : LRU K V) (key : K) (fnVal : V)
      (fnTtl now : Int), Reach l → Reach (GetOrCompute l key fnVal fnTtl now).1
  | step_delete : ∀ (l : LRU K V) (key : K), Reach l → Reach (Delete l key).1
  | step_clear : ∀ (l : LRU K V), Reach l → Reach (Clear l).1
  | step_resize : ∀ (l : LRU K V) (ms : Int), Reach l → Reach (Resize l ms).1
  | step_purge : ∀ (l : LRU K V) (now : Int),
      Reach l → Reach (PurgeExpired l now).1

/-! ### Insertion-only reachability (no `Resize`) -/

/-- One call of the insertion family (`Set` / `SetWithTTL` / `GetOrSet`). -/
inductive SetOp (K V : Type) where
  | setOp : K → V → Int → SetOp K V
  | setWithTTLOp : K → V → Int → Int → SetOp K V
  | getOrSetOp : K → V → Int → Int → SetOp K V

/-- Apply one insertion-family call (keeping only the state). -/
def applyOp (l : LRU K V) : SetOp K V → LRU K V
  | SetOp.setOp k v now => (Set l k v now).1
  | SetOp.setWithTTLOp k v ttl now => (SetWithTTL l k v ttl now).1
  | SetOp.getOrSetOp k v ttl now => (GetOrSet l k v ttl now).1

/-- Apply a sequence of insertion-family calls. -/
def applySeq (l : LRU K V) : List (SetOp K V) → LRU K V
  | [] => l
  | op :: rest => applySeq (applyOp l op) rest

/-- The invariant plus the capacity accounting that holds as long as the
cache is never resized above its construction capacity. -/
def WFcap (l : LRU K V) : Prop :=
  Inv l ∧ l.maxSize ≤ (l.poolCap : Int) ∧ l.nodePool.length ≤ l.poolCap

/-! ### Iteration -/

/-- The skip-predicate of iteration: `true` when the entry is permanent
(`expiration = 0`) or not yet expired (`now < expiration`). -/
def iterLive (pool : List (lruNode K V)) (now : Int) (j : Nat) : Bool :=
  decide ((getNat pool j).expiration = 0 ∨ now < (getNat pool j).expiration)

/-! ### Filling a fresh cache with distinct keys -/

/-- `i` successive `Set` calls with keys `ks 0 .. ks (i-1)`. -/
def setSeq (ks : Nat → K) (vs : Nat → V) (now : Int) (l : LRU K V) :
    Nat → LRU K V
  | 0 => l
  | n + 1 => (Set (setSeq ks vs now l n) (ks n) (vs n) now).1


/-! ### Properties -/

theorem getN_coe (pool : List (lruNode K V)) (j : Nat) :
    getN pool (j : Int) = getNat pool j := by
  simp [getN, getNat]

theorem setN_coe (pool : List (lruNode K V)) (j : Nat) (n : lruNode K V) :
    setN pool (j : Int) n = pool.set j n := by
  simp [setN]

theorem getNat_set_self {pool : List (lruNode K V)} {j : Nat}
    (h : j < pool.length) (n : lruNode K V) :
    getNat (pool.set j n) j = n := by
  induction pool generalizing j with
  | nil => simp at h
  | cons x xs ih =>
    cases j with
    | zero => simp [getNat]
    | succ j =>
      simp only [List.set_cons_succ, getNat, List.getD_cons_succ]
      exact ih (by simpa using h)

theorem getNat_set_ne {pool : List (lruNode K V)} {i j : Nat}
    (h : i ≠ j) (n : lruNode K V) :
    getNat (pool.set j n) i = getNat pool i := by
  induction pool generalizing i j with
  | nil => simp [getNat]
  | cons x xs ih =>
    cases j with
    | zero =>
      cases i with
      | zero => exact absurd rfl h
      | succ i => simp [getNat]
    | succ j =>
      cases i with
      | zero => simp [getNat]
      | succ i =>
        simp only [List.set_cons_succ, getNat, List.getD_cons_succ]
        exact ih (by omega)

theorem getNat_append_lt {pool xs : List (lruNode K V)} {j : Nat}
    (h : j < pool.length) :
    getNat (pool ++ xs) j = getNat pool j := by
  induction pool generalizing j with
  | nil => simp at h
  | cons x rest ih =>
    cases j with
    | zero => simp [getNat]
    | succ j =>
      simp only [List.cons_append, getNat, List.getD_cons_succ]
      exact ih (by simpa using h)

theorem getNat_append_len (pool : List (lruNode K V)) (n : lruNode K V) :
    getNat (pool ++ [n]) pool.length = n := by
  induction pool with
  | nil => simp [getNat]
  | cons x rest ih => simpa [getNat] using ih

/-! ### Index (association list) lemmas -/

theorem mLoad_mem {m : List (K × Int)} {k : K} {x : Int}
    (h : mLoad m k = some x) : (k, x) ∈ m := by
  induction m with
  | nil => simp [mLoad] at h
  | cons p rest ih =>
    by_cases hp : p.1 = k
    · simp only [mLoad, if_pos hp, Option.some.injEq] at h
      have hpe : p = (k, x) := by
        obtain ⟨p1, p2⟩ := p
        simp only at hp h
        rw [hp, h]
      rw [← hpe]
      exact List.mem_cons_self _ _
    · simp only [mLoad, if_neg hp] at h
      exact List.mem_cons_of_mem _ (ih h)

theorem mLoad_mDelete (m : List (K × Int)) (k k' : K) :
    mLoad (mDelete m k) k' = if k' = k then none else mLoad m k' := by
  induction m with
  | nil => simp [mLoad, mDelete]
  | cons p rest ih =>
    by_cases hp : p.1 = k
    · rw [show mDelete (p :: rest) k = mDelete rest k by simp [mDelete, hp], ih]
      by_cases hk : k' = k
      · simp [hk]
      · have hpk : ¬ p.1 = k' := fun hh => hk (by rw [← hh, hp])
        simp [mLoad, hpk, hk]
    · rw [show mDelete (p :: rest) k = p :: mDelete rest k by simp [mDelete, hp]]
      by_cases hpk : p.1 = k'
      · have hk : ¬ k' = k := fun hh => hp (hpk.trans hh)
        simp [mLoad, hpk, hk]
      · simp [mLoad, hpk, ih]

theorem mem_mDelete {m : List (K × Int)} {k : K} {p : K × Int} :
    p ∈ mDelete m k → p ∈ m ∧ p.1 ≠ k := by
  induction m with
  | nil => intro h; simp [mDelete] at h
  | cons q rest ih =>
    intro h
    by_cases hq : q.1 = k
    · rw [show mDelete (q :: rest) k = mDelete rest k by simp [mDelete, hq]] at h
      exact ⟨List.mem_cons_of_mem _ (ih h).1, (ih h).2⟩
    · rw [show mDelete (q :: rest) k = q :: mDelete rest k by
        simp [mDelete, hq]] at h
      rcases List.mem_cons.mp h with h | h
      · exact ⟨by simp [h], h ▸ hq⟩
      · exact ⟨List.mem_cons_of_mem _ (ih h).1, (ih h).2⟩

theorem mLoad_mStore (m : List (K × Int)) (k k' : K) (i : Int) :
    mLoad (mStore m k i) k' = if k = k' then some i else mLoad m k' := by
  by_cases hk : k = k'
  · simp [mStore, mLoad, hk]
  · simp only [mStore, mLoad, if_neg hk, mLoad_mDelete]
    simp [if_neg (fun h : k' = k => hk h.symm), fun h : k' = k => hk h.symm]

theorem mem_mStore {m : List (K × Int)} {k : K} {i : Int} {p : K × Int}
    (h : p ∈ mStore m k i) : p = (k, i) ∨ (p ∈ m ∧ p.1 ≠ k) := by
  rcases List.mem_cons.mp h with hh | hh
  · exact Or.inl hh
  · exact Or.inr (mem_mDelete hh)

theorem lastOr_ne_nil {c : List Nat} (h : c ≠ []) (d d' : Int) :
    lastOr c d = lastOr c d' := by
  induction c with
  | nil => exact absurd rfl h
  | cons a rest ih =>
    cases rest with
    | nil => rfl
    | cons b r => exact ih (by simp)

theorem lastOr_cons (a : Nat) (c : List Nat) (d : Int) :
    lastOr (a :: c) d = lastOr c (a : Int) := by
  cases c with
  | nil => rfl
  | cons b r => exact lastOr_ne_nil (by simp) d (a : Int)

theorem headOr_append (c₁ c₂ : List Nat) (d : Int) :
    headOr (c₁ ++ c₂) d = headOr c₁ (headOr c₂ d) := by
  cases c₁ <;> rfl

theorem lastOr_append (c₁ c₂ : List Nat) (d : Int) :
    lastOr (c₁ ++ c₂) d = lastOr c₂ (lastOr c₁ d) := by
  induction c₁ generalizing d with
  | nil => rfl
  | cons a rest ih =>
    rw [List.cons_append, lastOr_cons, ih, lastOr_cons]

theorem lastOr_append_single (c : List Nat) (a : Nat) (d : Int) :
    lastOr (c ++ [a]) d = (a : Int) := by
  rw [lastOr_append]; rfl

@[simp] theorem headOr_nil (d : Int) : headOr [] d = d := rfl

@[simp] theorem headOr_cons (a : Nat) (r : List Nat) (d : Int) :
    headOr (a :: r) d = (a : Int) := rfl

@[simp] theorem lastOr_nil (d : Int) : lastOr [] d = d := rfl

theorem lastOr_append_cons (c₁ : List Nat) (b : Nat) (c₂ : List Nat)
    (d : Int) : lastOr (c₁ ++ b :: c₂) d = lastOr c₂ (b : Int) := by
  rw [lastOr_append, lastOr_cons]

@[simp] theorem lseg_nil (pool : List (lruNode K V)) (pr nx : Int) :
    lseg pool pr [] nx := trivial

theorem lseg_cons (pool : List (lruNode K V)) (pr nx : Int) (a : Nat)
    (rest : List Nat) :
    lseg pool pr (a :: rest) nx ↔
      (getNat pool a).prev = pr ∧ (getNat pool a).next = headOr rest nx ∧
        lseg pool (a : Int) rest nx := Iff.rfl

theorem lseg_congr {pool pool' : List (lruNode K V)} {c : List Nat}
    (h : ∀ a ∈ c, getNat pool' a = getNat pool a) {pr nx : Int}
    (hl : lseg pool pr c nx) : lseg pool' pr c nx := by
  induction c generalizing pr with
  | nil => trivial
  | cons a rest ih =>
    obtain ⟨h1, h2, h3⟩ := hl
    refine ⟨?_, ?_, ih (fun x hx => h x (List.mem_cons_of_mem _ hx)) h3⟩
    · rw [h a (by simp)]; exact h1
    · rw [h a (by simp)]; exact h2

theorem lseg_append {pool : List (lruNode K V)} {c₁ c₂ : List Nat}
    {pr nx : Int} :
    lseg pool pr (c₁ ++ c₂) nx ↔
      lseg pool pr c₁ (headOr c₂ nx) ∧ lseg pool (lastOr c₁ pr) c₂ nx := by
  induction c₁ generalizing pr with
  | nil => simp [lastOr]
  | cons a rest ih =>
    simp only [List.cons_append, lseg_cons, headOr_append, ih, lastOr_cons]
    constructor
    · rintro ⟨h1, h2, h3, h4⟩; exact ⟨⟨h1, h2, h3⟩, h4⟩
    · rintro ⟨⟨h1, h2, h3⟩, h4⟩; exact ⟨h1, h2, h3, h4⟩

@[simp] theorem fseg_nil (pool : List (lruNode K V)) : fseg pool [] := trivial

theorem fseg_cons (pool : List (lruNode K V)) (a : Nat) (rest : List Nat) :
    fseg pool (a :: rest) ↔
      (getNat pool a).next = headOr rest (-1) ∧ fseg pool rest := Iff.rfl

theorem fseg_congr {pool pool' : List (lruNode K V)} {f : List Nat}
    (h : ∀ a ∈ f, getNat pool' a = getNat pool a)
    (hf : fseg pool f) : fseg pool' f := by
  induction f with
  | nil => trivial
  | cons a rest ih =>
    obtain ⟨h1, h2⟩ := hf
    exact ⟨by rw [h a (by simp)]; exact h1,
      ih (fun x hx => h x (List.mem_cons_of_mem _ hx)) h2⟩

theorem Represents.nodup {l : LRU K V} {c f : List Nat}
    (h : Represents l c f) : (c ++ f).Nodup :=
  h.hperm.nodup_iff.mpr (List.nodup_range _)

theorem Represents.chain_nodup {l : LRU K V} {c f : List Nat}
    (h : Represents l c f) : c.Nodup :=
  (List.nodup_append.mp h.nodup).1

theorem Represents.free_nodup {l : LRU K V} {c f : List Nat}
    (h : Represents l c f) : f.Nodup :=
  (List.nodup_append.mp h.nodup).2.1

theorem Represents.disj {l : LRU K V} {c f : List Nat}
    (h : Represents l c f) : ∀ a ∈ c, a ∉ f :=
  fun a ha hf => (List.nodup_append.mp h.nodup).2.2 ha hf

theorem Represents.chain_lt {l : LRU K V} {c f : List Nat}
    (h : Represents l c f) : ∀ j ∈ c, j < l.nodePool.length := by
  intro j hj
  have : j ∈ List.range l.nodePool.length :=
    h.hperm.mem_iff.mp (by simp [hj])
  simpa using this

theorem Represents.free_lt {l : LRU K V} {c f : List Nat}
    (h : Represents l c f) : ∀ j ∈ f, j < l.nodePool.length := by
  intro j hj
  have : j ∈ List.range l.nodePool.length :=
    h.hperm.mem_iff.mp (by simp [hj])
  simpa using this

theorem Represents.key_inj {l : LRU K V} {c f : List Nat}
    (h : Represents l c f) {i j : Nat} (hi : i ∈ c) (hj : j ∈ c)
    (hk : (getNat l.nodePool i).key = (getNat l.nodePool j).key) : i = j := by
  have h1 := h.hmap2 i hi
  have h2 := h.hmap2 j hj
  rw [hk] at h1
  rw [h1] at h2
  exact Nat.cast_injective (Option.some.inj h2)

theorem Represents.mLoad_none {l : LRU K V} {c f : List Nat}
    (h : Represents l c f) {k : K}
    (hk : ∀ j ∈ c, (getNat l.nodePool j).key ≠ k) : mLoad l.m k = none := by
  cases hml : mLoad l.m k with
  | none => rfl
  | some x =>
    obtain ⟨j, hj, hjx, hjk⟩ := h.hmap1 (k, x) (mLoad_mem hml)
    exact absurd hjk (hk j hj)

theorem Represents.mLoad_some_elim {l : LRU K V} {c f : List Nat}
    (h : Represents l c f) {k : K} {x : Int} (hml : mLoad l.m k = some x) :
    ∃ j ∈ c, (j : Int) = x ∧ (getNat l.nodePool j).key = k :=
  h.hmap1 (k, x) (mLoad_mem hml)

/-! ### Frame lemmas for the primitive list operations -/

@[simp] theorem setN_length (pool : List (lruNode K V)) (i : Int)
    (n : lruNode K V) : (setN pool i n).length = pool.length := by
  unfold setN; split <;> simp

theorem removeFromList_frame (l : LRU K V) (idx : Int) :
    (removeFromList l idx).m = l.m ∧
    (removeFromList l idx).size = l.size ∧
    (removeFromList l idx).freeList = l.freeList ∧
    (removeFromList l idx).maxSize = l.maxSize ∧
    (removeFromList l idx).defaultTTL = l.defaultTTL ∧
    (removeFromList l idx).onEv = l.onEv ∧
    (removeFromList l idx).poolCap = l.poolCap ∧
    (removeFromList l idx).nodePool.length = l.nodePool.length := by
  unfold removeFromList
  dsimp only
  split <;> split <;> simp

theorem sameData_refl (n : lruNode K V) : sameData n n := ⟨rfl, rfl, rfl⟩

theorem sameData_trans {a b c : lruNode K V}
    (h1 : sameData a b) (h2 : sameData b c) : sameData a c :=
  ⟨h1.1.trans h2.1, h1.2.1.trans h2.2.1, h1.2.2.trans h2.2.2⟩

theorem sameData_set {pool : List (lruNode K V)} {j : Nat} {n : lruNode K V}
    (hn : sameData n (getNat pool j)) (a : Nat) :
    sameData (getNat (pool.set j n) a) (getNat pool a) := by
  by_cases haj : a = j
  · subst haj
    by_cases hb : a < pool.length
    · rw [getNat_set_self hb]; exact hn
    · rw [List.set_eq_of_length_le (le_of_not_lt hb)]
      exact sameData_refl _
  · rw [getNat_set_ne haj]
    exact sameData_refl _

theorem headOr_ne_nil {c : List Nat} (h : c ≠ []) (d d' : Int) :
    headOr c d = headOr c d' := by
  cases c with
  | nil => exact absurd rfl h
  | cons a r => rfl

theorem addToFront_frame (l : LRU K V) (idx : Int) :
    (addToFront l idx).m = l.m ∧
    (addToFront l idx).size = l.size ∧
    (addToFront l idx).freeList = l.freeList ∧
    (addToFront l idx).maxSize = l.maxSize ∧
    (addToFront l idx).defaultTTL = l.defaultTTL ∧
    (addToFront l idx).onEv = l.onEv ∧
    (addToFront l idx).poolCap = l.poolCap ∧
    (addToFront l idx).nodePool.length = l.nodePool.length := by
  unfold addToFront
  dsimp only
  split <;> simp

/-- Splicing a slot `j` out of the represented chain `c₁ ++ j :: c₂`:
`removeFromList` leaves the chain `c₁ ++ c₂` correctly linked, keeps
`head`/`tail` in sync, touches no slot outside the original chain, and
preserves the data fields of every slot. -/
theorem removeFromList_spec {l : LRU K V} {c f : List Nat}
    (h : Represents l c f) (c₁ c₂ : List Nat) (j : Nat)
    (hc : c = c₁ ++ j :: c₂) :
    lseg (removeFromList l ↑j).nodePool (-1) (c₁ ++ c₂) (-1) ∧
    (removeFromList l ↑j).head = headOr (c₁ ++ c₂) (-1) ∧
    (removeFromList l ↑j).tail = lastOr (c₁ ++ c₂) (-1) ∧
    (∀ a, a ∉ (c₁ ++ j :: c₂) →
      getNat (removeFromList l ↑j).nodePool a = getNat l.nodePool a) ∧
    (∀ a, sameData (getNat (removeFromList l ↑j).nodePool a)
      (getNat l.nodePool a)) := by
  have hnd : (c₁ ++ j :: c₂).Nodup := hc ▸ h.chain_nodup
  have hjmem : j ∈ c₁ ++ j :: c₂ := by simp
  have hjlt : j < l.nodePool.length := h.chain_lt j (hc ▸ hjmem)
  obtain ⟨hnd1, hnd2, hdisj⟩ := List.nodup_append.mp hnd
  have hjc₁ : j ∉ c₁ := fun hj1 => hdisj hj1 (by simp)
  have hjc₂ : j ∉ c₂ := (List.nodup_cons.mp hnd2).1
  have hch := h.hchain
  rw [hc, lseg_append] at hch
  obtain ⟨hch1, hjprev, hjnext, hch3⟩ := hch
  have hch1' : lseg l.nodePool (-1) c₁ (↑j) := by simpa [headOr] using hch1
  have hhead := h.hhead
  have htail := h.htail
  rw [hc] at hhead htail
  have hle : ¬ (0:Int) ≤ -1 := by decide
  rcases List.eq_nil_or_concat c₁ with rfl | ⟨c₁', p, rfl⟩
  · -- removing the head node
    cases c₂ with
    | nil =>
      unfold removeFromList
      simp only [getN_coe, setN_coe, hjprev, hjnext, lastOr_nil, headOr_nil,
        if_neg hle]
      refine ⟨trivial, rfl, rfl, ?_, ?_⟩
      · intro a ha
        have haj : a ≠ j := by simpa using ha
        exact getNat_set_ne haj _
      · intro a
        refine sameData_set ?_ a
        exact ⟨rfl, rfl, rfl⟩
    | cons q c₂' =>
      unfold removeFromList
      have hjq : j ≠ q := fun e => (List.nodup_cons.mp hnd2).1 (by simp [e])
      have hq0 : (0:Int) ≤ ↑q := Int.natCast_nonneg q
      have hqlt : q < l.nodePool.length := h.chain_lt q (by rw [hc]; simp)
      obtain ⟨hqprev, hqnext, hch3'⟩ := hch3
      have hqc₂' : q ∉ c₂' :=
        (List.nodup_cons.mp (List.nodup_cons.mp hnd2).2).1
      have hjc₂' : j ∉ c₂' := fun hx => hjc₂ (List.mem_cons_of_mem _ hx)
      have eqj : ∀ n, getNat (l.nodePool.set q n) j = getNat l.nodePool j :=
        fun n => getNat_set_ne hjq n
      simp only [getN_coe, setN_coe, hjprev, hjnext, lastOr_nil, headOr_nil,
        headOr_cons, if_neg hle, if_pos hq0, eqj]
      refine ⟨?_, rfl, ?_, ?_, ?_⟩
      · rw [List.nil_append, lseg_cons, getNat_set_ne (Ne.symm hjq),
          getNat_set_self hqlt]
        refine ⟨rfl, hqnext, ?_⟩
        refine lseg_congr (fun a ha => ?_) hch3'
        have haj : a ≠ j := fun e => hjc₂' (e ▸ ha)
        have haq : a ≠ q := fun e => hqc₂' (e ▸ ha)
        rw [getNat_set_ne haj, getNat_set_ne haq]
      · rw [htail]
        simp only [List.nil_append]
        rw [lastOr_cons]
        refine lastOr_ne_nil ?_ _ _
        simp
      · intro a ha
        have haj : a ≠ j := fun e => ha (by simp [e])
        have haq : a ≠ q := fun e => ha (by simp [e])
        rw [getNat_set_ne haj, getNat_set_ne haq]
      · intro a
        refine sameData_trans (sameData_set ?_ a) (sameData_set ?_ a)
        · rw [eqj]
          exact ⟨rfl, rfl, rfl⟩
        · exact ⟨rfl, rfl, rfl⟩
  · -- the removed node has a predecessor p
    simp only [List.concat_eq_append] at *
    have hpmem : p ∈ c₁' ++ [p] := by simp
    have hpj : p ≠ j := fun e => hdisj hpmem (by simp [e])
    have hp0 : (0:Int) ≤ ↑p := Int.natCast_nonneg p
    have hplt : p < l.nodePool.length :=
      h.chain_lt p (by rw [hc]; simp)
    have hpc₁' : p ∉ c₁' := by
      have := hnd1
      rw [List.nodup_append] at this
      exact fun hx => this.2.2 hx (by simp)
    rw [lseg_append] at hch1'
    obtain ⟨hch1a, hpprev, hpnext, -⟩ := hch1'
    have hch1a' : lseg l.nodePool (-1) c₁' (↑p) := by
      simpa [headOr] using hch1a
    have hpnext' : (getNat l.nodePool p).next = (j : Int) := by
      simpa [headOr] using hpnext
    have hpprev' : (getNat l.nodePool p).prev = lastOr c₁' (-1) := hpprev
    cases c₂ with
    | nil =>
      unfold removeFromList
      have eqj : ∀ n, getNat (l.nodePool.set p n) j = getNat l.nodePool j :=
        fun n => getNat_set_ne (Ne.symm hpj) n
      simp only [getN_coe, setN_coe, hjprev, hjnext, lastOr_append_single,
        headOr_nil, headOr_cons, if_pos hp0, if_neg hle, eqj]
      refine ⟨?_, ?_, ?_, ?_, ?_⟩
      · rw [List.append_nil, lseg_append]
        constructor
        · refine lseg_congr (fun a ha => ?_) (by simpa [headOr] using hch1a')
          have haj : a ≠ j := fun e =>
            hdisj (show a ∈ c₁' ++ [p] by simp [ha]) (by simp [e])
          have hap : a ≠ p := fun e => hpc₁' (e ▸ ha)
          rw [getNat_set_ne haj, getNat_set_ne hap]
        · rw [lseg_cons, getNat_set_ne hpj, getNat_set_self hplt]
          exact ⟨hpprev', rfl, trivial⟩
      · rw [List.append_nil, hhead, headOr_append]
        refine headOr_ne_nil ?_ _ _
        simp
      · rw [List.append_nil, lastOr_append_single]
      · intro a ha
        have haj : a ≠ j := fun e => ha (by simp [e])
        have hap : a ≠ p := fun e => ha (by simp [e])
        rw [getNat_set_ne haj, getNat_set_ne hap]
      · intro a
        refine sameData_trans (sameData_set ?_ a) (sameData_set ?_ a)
        · rw [eqj]
          exact ⟨rfl, rfl, rfl⟩
        · exact ⟨rfl, rfl, rfl⟩
    | cons q c₂' =>
      unfold removeFromList
      have hjq : j ≠ q := fun e => (List.nodup_cons.mp hnd2).1 (by simp [e])
      have hq0 : (0:Int) ≤ ↑q := Int.natCast_nonneg q
      have hqlt : q < l.nodePool.length := h.chain_lt q (by rw [hc]; simp)
      obtain ⟨hqprev, hqnext, hch3'⟩ := hch3
      have hqc₂' : q ∉ c₂' :=
        (List.nodup_cons.mp (List.nodup_cons.mp hnd2).2).1
      have hjc₂' : j ∉ c₂' := fun hx => hjc₂ (List.mem_cons_of_mem _ hx)
      have hpq : p ≠ q := fun e => hdisj hpmem (by simp [e])
      have eq_pj : ∀ n, getNat (l.nodePool.set p n) j = getNat l.nodePool j :=
        fun n => getNat_set_ne (Ne.symm hpj) n
      have eq_pq : ∀ n, getNat (l.nodePool.set p n) q = getNat l.nodePool q :=
        fun n => getNat_set_ne (Ne.symm hpq) n
      have eq_pqj : ∀ n n',
          getNat ((l.nodePool.set p n).set q n') j = getNat l.nodePool j :=
        fun n n' => by rw [getNat_set_ne hjq, eq_pj]
      simp only [getN_coe, setN_coe, hjprev, hjnext, lastOr_append_single,
        headOr_nil, headOr_cons, if_pos hp0, if_pos hq0, eq_pj, eq_pq, eq_pqj]
      refine ⟨?_, ?_, ?_, ?_, ?_⟩
      · rw [lseg_append]
        constructor
        · rw [lseg_append]
          constructor
          · refine lseg_congr (fun a ha => ?_) (by simpa [headOr] using hch1a')
            have haj : a ≠ j := fun e =>
              hdisj (show a ∈ c₁' ++ [p] by simp [ha]) (by simp [e])
            have hap : a ≠ p := fun e => hpc₁' (e ▸ ha)
            have haq : a ≠ q := fun e =>
              hdisj (show a ∈ c₁' ++ [p] by simp [ha]) (by simp [e])
            rw [getNat_set_ne haj, getNat_set_ne haq, getNat_set_ne hap]
          · rw [lseg_cons, getNat_set_ne hpj, getNat_set_ne hpq,
              getNat_set_self hplt]
            refine ⟨by simpa [headOr] using hpprev', ?_, trivial⟩
            simp [headOr, lastOr]
        · rw [lastOr_append_single, lseg_cons,
            getNat_set_ne (Ne.symm hjq), getNat_set_self]
          · refine ⟨rfl, by simpa [headOr] using hqnext, ?_⟩
            refine lseg_congr (fun a ha => ?_) hch3'
            have haj : a ≠ j := fun e => hjc₂' (e ▸ ha)
            have haq : a ≠ q := fun e => hqc₂' (e ▸ ha)
            have hap : a ≠ p := fun e =>
              hdisj hpmem (show p ∈ j :: q :: c₂' by simp [← e, ha])
            rw [getNat_set_ne haj, getNat_set_ne haq, getNat_set_ne hap]
          · simpa using hqlt
      · rw [hhead, headOr_append (c₁' ++ [p]) (j :: q :: c₂'),
          headOr_append (c₁' ++ [p]) (q :: c₂')]
        refine headOr_ne_nil ?_ _ _
        simp
      · rw [htail, lastOr_append_cons, lastOr_append_cons, lastOr_cons]
      · intro a ha
        have haj : a ≠ j := fun e => ha (by simp [e])
        have haq : a ≠ q := fun e => ha (by simp [e])
        have hap : a ≠ p := fun e => ha (by simp [e])
        rw [getNat_set_ne haj, getNat_set_ne haq, getNat_set_ne hap]
      · intro a
        refine sameData_trans (sameData_set ?_ a)
          (sameData_trans (sameData_set ?_ a) (sameData_set ?_ a))
        · rw [eq_pqj]
          exact ⟨rfl, rfl, rfl⟩
        · rw [eq_pq]
          exact ⟨rfl, rfl, rfl⟩
        · exact ⟨rfl, rfl, rfl⟩

/-- Pushing a fresh slot `j` to the front of a chain `c`. -/
theorem addToFront_spec {l : LRU K V} {c : List Nat} {j : Nat}
    (hch : lseg l.nodePool (-1) c (-1)) (hh : l.head = headOr c (-1))
    (ht : l.tail = lastOr c (-1)) (hjc : j ∉ c) (hnd : c.Nodup)
    (hjlt : j < l.nodePool.length)
    (hcb : ∀ a ∈ c, a < l.nodePool.length) :
    lseg (addToFront l ↑j).nodePool (-1) (j :: c) (-1) ∧
    (addToFront l ↑j).head = (j : Int) ∧
    (addToFront l ↑j).tail = lastOr (j :: c) (-1) ∧
    (∀ a, a ∉ (j :: c) →
      getNat (addToFront l ↑j).nodePool a = getNat l.nodePool a) ∧
    (∀ a, sameData (getNat (addToFront l ↑j).nodePool a)
      (getNat l.nodePool a)) := by
  have hle : ¬ (0:Int) ≤ -1 := by decide
  cases c with
  | nil =>
    unfold addToFront
    rw [hh]
    simp only [getN_coe, setN_coe, headOr_nil, if_neg hle]
    refine ⟨?_, ?_, ?_, ?_, ?_⟩
    · refine ⟨?_, ?_, trivial⟩
      · simp [getNat_set_self hjlt]
      · simp [getNat_set_self hjlt]
    · trivial
    · trivial
    · intro a ha
      have haj : a ≠ j := by simpa using ha
      exact getNat_set_ne haj _
    · intro a
      refine sameData_set ?_ a
      exact ⟨rfl, rfl, rfl⟩
  | cons b c' =>
    unfold addToFront
    obtain ⟨hbprev, hbnext, hch'⟩ := hch
    have hjb : j ≠ b := fun e => hjc (by simp [e])
    have hblt : b < l.nodePool.length := hcb b (by simp)
    have hb0 : (0:Int) ≤ ↑b := Int.natCast_nonneg b
    have ebj : ∀ n, getNat (l.nodePool.set j n) b = getNat l.nodePool b :=
      fun n => getNat_set_ne (Ne.symm hjb) n
    rw [hh]
    simp only [getN_coe, setN_coe, headOr_cons, if_pos hb0, ebj]
    refine ⟨?_, ?_, ?_, ?_, ?_⟩
    · refine ⟨?_, ?_, ?_, ?_, ?_⟩
      · rw [getNat_set_ne hjb, getNat_set_self hjlt]
      · rw [getNat_set_ne hjb, getNat_set_self hjlt]
        simp
      · rw [getNat_set_self (by simpa using hblt)]
      · rw [getNat_set_self (by simpa using hblt)]
        exact hbnext
      · refine lseg_congr (fun a ha => ?_) hch'
        have hab : a ≠ b := fun e => (List.nodup_cons.mp hnd).1 (e ▸ ha)
        have haj : a ≠ j := fun e => hjc (List.mem_cons_of_mem _ (e ▸ ha))
        rw [getNat_set_ne hab, getNat_set_ne haj]
    · trivial
    · rw [ht]
      symm
      rw [lastOr_cons]
      exact lastOr_ne_nil (by simp) _ _
    · intro a ha
      have haj : a ≠ j := fun e => ha (by simp [e])
      have hab : a ≠ b := fun e => ha (by simp [e])
      rw [getNat_set_ne hab, getNat_set_ne haj]
    · intro a
      refine sameData_trans (sameData_set ?_ a) (sameData_set ?_ a)
      · rw [ebj]
        exact ⟨rfl, rfl, rfl⟩
      · exact ⟨rfl, rfl, rfl⟩

/-- `releaseNode` as an unconditional equation. -/
theorem releaseNode_eq (l : LRU K V) (j : Nat) :
    releaseNode l (j : Int) =
      if l.nodePool.length ≤ j then l
      else { l with
        nodePool := l.nodePool.set j
          { key := default, value := default, expiration := 0,
            prev := -1, next := l.freeList },
        freeList := (j : Int) } := by
  unfold releaseNode
  by_cases hb : l.nodePool.length ≤ j
  · rw [if_pos (Or.inr (by exact_mod_cast hb)), if_pos hb]
  · have hcond : ¬((j : Int) < 0 ∨ (l.nodePool.length : Int) ≤ (j : Int)) := by
      push_neg
      exact ⟨Int.natCast_nonneg j, by exact_mod_cast not_le.mp hb⟩
    rw [if_neg hcond, if_neg hb, setN_coe]

/-- `evictBack` on a state whose chain ends in `t`: the chain loses `t`,
`t` goes to the front of the free list, the index loses `t`'s key, the size
drops by one — and the returned pair is the zeroed post-release data. -/
theorem evictBack_spec {l : LRU K V} {c' f : List Nat} {t : Nat}
    (h : Represents l (c' ++ [t]) f) :
    Represents (evictBack l).1 c' (t :: f) ∧
    (evictBack l).1.m = mDelete l.m (getNat l.nodePool t).key ∧
    (evictBack l).1.size = l.size - 1 ∧
    (evictBack l).1.maxSize = l.maxSize ∧
    (evictBack l).1.defaultTTL = l.defaultTTL ∧
    (evictBack l).1.onEv = l.onEv ∧
    (evictBack l).1.poolCap = l.poolCap ∧
    (evictBack l).1.nodePool.length = l.nodePool.length ∧
    (∀ a, a ≠ t → sameData (getNat (evictBack l).1.nodePool a)
      (getNat l.nodePool a)) ∧
    (evictBack l).2 = (default, default, true) := by
  have htail := h.htail
  rw [lastOr_append_single] at htail
  have hcond : ¬ l.tail < 0 := by
    rw [htail]; exact not_lt.mpr (Int.natCast_nonneg t)
  have htlt : t < l.nodePool.length := h.chain_lt t (by simp)
  have htc' : t ∉ c' := by
    have := h.chain_nodup
    rw [List.nodup_append] at this
    exact fun hx => this.2.2 hx (by simp)
  obtain ⟨hseg, hhd, htl, hunt, hdata⟩ := removeFromList_spec h c' [] t rfl
  obtain ⟨hm1, hs1, hf1, hms1, hdt1, hoe1, hpc1, hlen1⟩ :=
    removeFromList_frame l ↑t
  have hkey1 : (getNat (removeFromList l ↑t).nodePool t).key =
      (getNat l.nodePool t).key := (hdata t).1
  unfold evictBack
  rw [htail, if_neg (htail ▸ hcond)]
  dsimp only
  rw [getN_coe]
  generalize hgen : removeFromList l ((t : Nat) : Int) = l1 at *
  rw [releaseNode_eq]
  dsimp only
  rw [hlen1, if_neg (not_le.mpr htlt)]
  dsimp only
  rw [List.append_nil] at hseg hhd htl
  have hset : ∀ a, a ≠ t → getNat (l1.nodePool.set t
      { key := default, value := default, expiration := 0,
        prev := -1, next := l1.freeList }) a = getNat l1.nodePool a :=
    fun a ha => getNat_set_ne ha _
  have hsetT : getNat (l1.nodePool.set t
      { key := default, value := default, expiration := 0,
        prev := -1, next := l1.freeList }) t =
      { key := default, value := default, expiration := 0,
        prev := -1, next := l1.freeList } :=
    getNat_set_self (hlen1 ▸ htlt) _
  have hfreeNotChain : ∀ a ∈ f, a ∉ c' ++ [t] := by
    intro a ha hx
    exact h.disj a hx ha
  refine ⟨?_, ?_, ?_, hms1, hdt1, hoe1, hpc1, ?_, ?_, ?_⟩
  · refine ⟨?_, ?_, ?_, ?_, ?_, ?_, ?_, ?_, ?_⟩
    · rw [List.length_set, hlen1,
        show c' ++ t :: f = (c' ++ [t]) ++ f by simp]
      exact h.hperm
    · refine lseg_congr (fun a ha => ?_) hseg
      exact hset a (fun e => htc' (e ▸ ha))
    · exact hhd
    · exact htl
    · refine ⟨?_, ?_⟩
      · rw [hsetT, hf1]
        exact h.hfleft
      · refine fseg_congr (fun a ha => ?_) h.hfree
        rw [hset a (fun e => (hfreeNotChain a ha) (by simp [e])),
          hunt a (hfreeNotChain a ha)]
    · rfl
    · rw [hs1, h.hsize]
      push_cast
      simp
    · intro p hp
      rw [hm1, hkey1] at hp
      obtain ⟨hpm, hpk⟩ := mem_mDelete hp
      obtain ⟨j, hj, hjx, hjk⟩ := h.hmap1 p hpm
      have hjt : j ≠ t := by
        intro e
        exact hpk (by rw [← hjk, e])
      have hjc' : j ∈ c' := by
        rcases List.mem_append.mp hj with hj' | hj'
        · exact hj'
        · exact absurd (by simpa using hj') hjt
      refine ⟨j, hjc', hjx, ?_⟩
      rw [hset j hjt, (hdata j).1, hjk]
    · intro j hj
      rw [hm1, hkey1, hset j (fun e => htc' (e ▸ hj)), (hdata j).1]
      have hkne : (getNat l.nodePool j).key ≠ (getNat l.nodePool t).key :=
        fun e => htc' (h.key_inj (List.mem_append_left _ hj) (by simp) e ▸ hj)
      rw [mLoad_mDelete, if_neg hkne]
      exact h.hmap2 j (List.mem_append_left _ hj)
  · rw [hm1, hkey1]
  · rw [hs1]
  · rw [List.length_set, hlen1]
  · intro a ha
    rw [hset a ha]
    exact hdata a
  · rw [getN_coe, hsetT]

/-- `lseg` only inspects the link fields, so it transfers along any pool
modification that preserves them. -/
theorem lseg_congr_links {pool pool' : List (lruNode K V)} {c : List Nat}
    (h : ∀ a ∈ c, (getNat pool' a).prev = (getNat pool a).prev ∧
      (getNat pool' a).next = (getNat pool a).next) {pr nx : Int}
    (hl : lseg pool pr c nx) : lseg pool' pr c nx := by
  induction c generalizing pr with
  | nil => trivial
  | cons a rest ih =>
    obtain ⟨h1, h2, h3⟩ := hl
    refine ⟨?_, ?_, ih (fun x hx => h x (List.mem_cons_of_mem _ hx)) h3⟩
    · rw [(h a (by simp)).1]; exact h1
    · rw [(h a (by simp)).2]; exact h2

theorem fseg_congr_links {pool pool' : List (lruNode K V)} {f : List Nat}
    (h : ∀ a ∈ f, (getNat pool' a).next = (getNat pool a).next)
    (hf : fseg pool f) : fseg pool' f := by
  induction f with
  | nil => trivial
  | cons a rest ih =>
    obtain ⟨h1, h2⟩ := hf
    exact ⟨by rw [h a (by simp)]; exact h1,
      ih (fun x hx => h x (List.mem_cons_of_mem _ hx)) h2⟩

/-- `moveToFront` of a chain member `j`: the chain becomes `j` followed by the
rest, everything else (index, size, free list, slot data) is untouched. -/
theorem moveToFront_rep {l : LRU K V} {c f : List Nat}
    (h : Represents l c f) (c₁ c₂ : List Nat) (j : Nat)
    (hc : c = c₁ ++ j :: c₂) :
    Represents (moveToFront l ↑j) (j :: (c₁ ++ c₂)) f ∧
    (moveToFront l ↑j).m = l.m ∧
    (moveToFront l ↑j).size = l.size ∧
    (moveToFront l ↑j).freeList = l.freeList ∧
    (moveToFront l ↑j).maxSize = l.maxSize ∧
    (moveToFront l ↑j).defaultTTL = l.defaultTTL ∧
    (moveToFront l ↑j).onEv = l.onEv ∧
    (moveToFront l ↑j).poolCap = l.poolCap ∧
    (moveToFront l ↑j).nodePool.length = l.nodePool.length ∧
    (∀ a, sameData (getNat (moveToFront l ↑j).nodePool a)
      (getNat l.nodePool a)) := by
  have hnd : (c₁ ++ j :: c₂).Nodup := hc ▸ h.chain_nodup
  obtain ⟨hnd1, hnd2, hdisj⟩ := List.nodup_append.mp hnd
  have hjc₁ : j ∉ c₁ := fun hj1 => hdisj hj1 (by simp)
  have hjc₂ : j ∉ c₂ := (List.nodup_cons.mp hnd2).1
  have hjcc : j ∉ c₁ ++ c₂ := by
    intro hx
    rcases List.mem_append.mp hx with hx | hx
    · exact hjc₁ hx
    · exact hjc₂ hx
  have hndcc : (c₁ ++ c₂).Nodup := by
    rw [List.nodup_append]
    exact ⟨hnd1, (List.nodup_cons.mp hnd2).2,
      fun a ha hb => hdisj ha (List.mem_cons_of_mem _ hb)⟩
  have hjlt : j < l.nodePool.length := h.chain_lt j (hc ▸ (by simp))
  obtain ⟨hseg, hhd, htl, hunt, hdata⟩ := removeFromList_spec h c₁ c₂ j hc
  obtain ⟨hm1, hs1, hf1, hms1, hdt1, hoe1, hpc1, hlen1⟩ :=
    removeFromList_frame l ↑j
  have hmemiff : ∀ a, a ∈ c₁ ++ j :: c₂ ↔ a ∈ j :: (c₁ ++ c₂) := by
    intro a
    simp only [List.mem_append, List.mem_cons]
    tauto
  unfold moveToFront
  generalize hgen : removeFromList l ((j : Nat) : Int) = l1 at *
  have hcb : ∀ a ∈ c₁ ++ c₂, a < l1.nodePool.length := by
    intro a ha
    rw [hlen1]
    refine h.chain_lt a ?_
    rw [hc]
    exact (hmemiff a).mpr (List.mem_cons_of_mem _ ha)
  obtain ⟨aseg, ahd, atl, aunt, adata⟩ :=
    addToFront_spec hseg hhd htl hjcc hndcc (hlen1 ▸ hjlt) hcb
  obtain ⟨am1, as1, af1, ams1, adt1, aoe1, apc1, alen1⟩ :=
    addToFront_frame l1 ↑j
  have hdataBoth : ∀ a, sameData (getNat (addToFront l1 ↑j).nodePool a)
      (getNat l.nodePool a) := fun a => sameData_trans (adata a) (hdata a)
  refine ⟨?_, ?_, ?_, ?_, ?_, ?_, ?_, ?_, ?_, hdataBoth⟩
  · refine ⟨?_, ?_, ahd, atl, ?_, ?_, ?_, ?_, ?_⟩
    · rw [alen1, hlen1]
      refine List.Perm.trans ?_ h.hperm
      refine List.Perm.append_right f ?_
      rw [hc]
      exact List.perm_middle.symm
    · exact aseg
    · refine fseg_congr (fun a ha => ?_) h.hfree
      have hanotc : a ∉ c₁ ++ j :: c₂ := fun hx =>
        h.disj a (hc ▸ hx) ha
      rw [aunt a (fun hx => hanotc ((hmemiff a).mpr hx)), hunt a hanotc]
    · rw [af1, hf1]
      exact h.hfleft
    · rw [as1, hs1, h.hsize, hc]
      push_cast
      simp
      omega
    · intro p hp
      rw [am1, hm1] at hp
      obtain ⟨j', hj', hjx, hjk⟩ := h.hmap1 p hp
      refine ⟨j', (hmemiff j').mp (hc ▸ hj'), hjx, ?_⟩
      rw [(hdataBoth j').1, hjk]
    · intro j' hj'
      rw [am1, hm1, (hdataBoth j').1]
      exact h.hmap2 j' (hc ▸ (hmemiff j').mpr hj')
  · rw [am1, hm1]
  · rw [as1, hs1]
  · rw [af1, hf1]
  · rw [ams1, hms1]
  · rw [adt1, hdt1]
  · rw [aoe1, hoe1]
  · rw [apc1, hpc1]
  · rw [alen1, hlen1]

theorem evictLoop_notfull {l : LRU K V} (fuel : Nat)
    (hlt : ¬ l.maxSize ≤ l.size) : evictLoop fuel l = (l, []) := by
  cases fuel with
  | zero => rfl
  | succ n => rw [evictLoop, if_neg hlt]

/-- `acquireNode` when the free list is non-empty. -/
theorem acquireNode_free {l : LRU K V} {g : Nat}
    (hfl : l.freeList = (g : Int)) :
    acquireNode l = ({ l with
      freeList := (getNat l.nodePool g).next,
      nodePool := (l.nodePool.set g
        { getNat l.nodePool g with
          prev := -1, next := -1, expiration := 0 }) }, (g : Int)) := by
  unfold acquireNode
  rw [hfl]
  dsimp only
  rw [if_pos (Int.natCast_nonneg g), getN_coe, setN_coe]

/-- `acquireNode` when the free list is empty and the pool can still grow. -/
theorem acquireNode_grow {l : LRU K V}
    (hfl : l.freeList = -1) (hlt : l.nodePool.length < l.poolCap) :
    acquireNode l = ({ l with nodePool := (l.nodePool ++
      [{ key := default, value := default, expiration := 0,
         prev := -1, next := -1 }]) }, (l.nodePool.length : Int)) := by
  unfold acquireNode
  rw [hfl]
  dsimp only
  rw [if_neg (by decide), if_neg (by exact_mod_cast not_le.mpr hlt)]

/-- `acquireNode` when the free list is empty and the pool is at capacity:
the -1 failure signal. -/
theorem acquireNode_fail {l : LRU K V}
    (hfl : l.freeList = -1) (hge : l.poolCap ≤ l.nodePool.length) :
    acquireNode l = (l, -1) := by
  unfold acquireNode
  rw [hfl]
  dsimp only
  rw [if_neg (by decide), if_pos (by exact_mod_cast hge)]

/-- Overwriting the data fields of a slot preserves every link field. -/
theorem fill_links (pool : List (lruNode K V)) (w : Nat) (key : K) (value : V)
    (exp : Int) : ∀ a,
    (getNat (pool.set w { getNat pool w with
      key := key, value := value, expiration := exp }) a).prev =
      (getNat pool a).prev ∧
    (getNat (pool.set w { getNat pool w with
      key := key, value := value, expiration := exp }) a).next =
      (getNat pool a).next := by
  intro a
  by_cases haw : a = w
  · subst haw
    by_cases hb : a < pool.length
    · rw [getNat_set_self hb]
      exact ⟨rfl, rfl⟩
    · rw [List.set_eq_of_length_le (le_of_not_lt hb)]
      exact ⟨rfl, rfl⟩
  · rw [getNat_set_ne haw]
    exact ⟨rfl, rfl⟩

theorem fillStoreAdd_rep {la : LRU K V} {c fN : List Nat} {w : Nat}
    (hch : lseg la.nodePool (-1) c (-1))
    (hh : la.head = headOr c (-1)) (ht : la.tail = lastOr c (-1))
    (hfr : fseg la.nodePool fN) (hfl : la.freeList = headOr fN (-1))
    (hperm : (c ++ w :: fN).Perm (List.range la.nodePool.length))
    (hm1 : ∀ p ∈ la.m, ∃ j ∈ c, (j : Int) = p.2 ∧
      (getNat la.nodePool j).key = p.1)
    (hm2 : ∀ j ∈ c, mLoad la.m (getNat la.nodePool j).key = some (j : Int))
    (hsz : la.size = (c.length : Int))
    (key : K) (value : V) (exp : Int)
    (hnew : mLoad la.m key = none) :
    Represents (fillStoreAdd la w key value exp) (w :: c) fN ∧
    (fillStoreAdd la w key value exp).m = mStore la.m key (w : Int) ∧
    (fillStoreAdd la w key value exp).size = la.size + 1 ∧
    (fillStoreAdd la w key value exp).maxSize = la.maxSize ∧
    (fillStoreAdd la w key value exp).defaultTTL = la.defaultTTL ∧
    (fillStoreAdd la w key value exp).onEv = la.onEv ∧
    (fillStoreAdd la w key value exp).poolCap = la.poolCap ∧
    (fillStoreAdd la w key value exp).nodePool.length =
      la.nodePool.length ∧
    (getNat (fillStoreAdd la w key value exp).nodePool w).key = key ∧
    (getNat (fillStoreAdd la w key value exp).nodePool w).value = value ∧
    (getNat (fillStoreAdd la w key value exp).nodePool w).expiration = exp ∧
    (∀ a, a ≠ w → sameData (getNat (fillStoreAdd la w key value exp).nodePool
      a) (getNat la.nodePool a)) := by
  have hndall : (c ++ w :: fN).Nodup :=
    hperm.nodup_iff.mpr (List.nodup_range _)
  obtain ⟨hndc, hndwf, hdisj⟩ := List.nodup_append.mp hndall
  have hwc : w ∉ c := fun hx => hdisj hx (by simp)
  have hwfN : w ∉ fN := (List.nodup_cons.mp hndwf).1
  have hbound : ∀ a ∈ c ++ w :: fN, a < la.nodePool.length := by
    intro a ha
    have : a ∈ List.range la.nodePool.length := hperm.mem_iff.mp ha
    simpa using this
  have hwlt : w < la.nodePool.length := hbound w (by simp)
  unfold fillStoreAdd
  dsimp only
  rw [getN_coe, setN_coe]
  have hfill := fill_links la.nodePool w key value exp
  have hfillT : getNat (la.nodePool.set w { getNat la.nodePool w with
      key := key, value := value, expiration := exp }) w =
      { getNat la.nodePool w with
        key := key, value := value, expiration := exp } :=
    getNat_set_self hwlt _
  have hfillO : ∀ a, a ≠ w → getNat (la.nodePool.set w
      { getNat la.nodePool w with
        key := key, value := value, expiration := exp }) a =
      getNat la.nodePool a := fun a ha => getNat_set_ne ha _
  generalize hgen : la.nodePool.set w { getNat la.nodePool w with
      key := key, value := value, expiration := exp } = pool3 at *
  have hlen3 : pool3.length = la.nodePool.length := by
    rw [← hgen, List.length_set]
  have hch3 : lseg pool3 (-1) c (-1) :=
    lseg_congr_links (fun a _ => hfill a) hch
  have hfr3 : fseg pool3 fN :=
    fseg_congr_links (fun a _ => (hfill a).2) hfr
  obtain ⟨aseg, ahd, atl, aunt, adata⟩ :=
    @addToFront_spec K V _ _ _ { la with
        nodePool := pool3, m := mStore la.m key (w : Int) } c w
      hch3 hh ht hwc hndc (hlen3 ▸ hwlt)
      (fun a ha => hlen3 ▸ hbound a (List.mem_append_left _ ha))
  obtain ⟨am1, as1, af1, ams1, adt1, aoe1, apc1, alen1⟩ :=
    addToFront_frame { la with
      nodePool := pool3, m := mStore la.m key (w : Int) } (w : Int)
  have hkeyW : (getNat (addToFront { la with
      nodePool := pool3, m := mStore la.m key (w : Int) }
      (w : Int)).nodePool w).key = key := by
    rw [(adata w).1, hfillT]
  have hvalW : (getNat (addToFront { la with
      nodePool := pool3, m := mStore la.m key (w : Int) }
      (w : Int)).nodePool w).value = value := by
    rw [(adata w).2.1, hfillT]
  have hexpW : (getNat (addToFront { la with
      nodePool := pool3, m := mStore la.m key (w : Int) }
      (w : Int)).nodePool w).expiration = exp := by
    rw [(adata w).2.2, hfillT]
  have hdataO : ∀ a, a ≠ w → sameData (getNat (addToFront { la with
      nodePool := pool3, m := mStore la.m key (w : Int) }
      (w : Int)).nodePool a) (getNat la.nodePool a) := by
    intro a ha
    refine sameData_trans (adata a) ?_
    rw [hfillO a ha]
    exact sameData_refl _
  refine ⟨?_, ?_, ?_, ams1, adt1, aoe1, apc1, ?_, hkeyW, hvalW, hexpW, hdataO⟩
  · refine ⟨?_, aseg, ahd, atl, ?_, ?_, ?_, ?_, ?_⟩
    · rw [alen1]
      dsimp only
      rw [hlen3]
      exact List.Perm.trans (List.perm_middle.symm) hperm
    · refine fseg_congr (fun a ha => ?_) hfr3
      refine aunt a (fun hx => ?_)
      rcases List.mem_cons.mp hx with hx | hx
      · exact hwfN (hx ▸ ha)
      · exact hdisj hx (List.mem_cons_of_mem _ ha)
    · rw [af1]
      exact hfl
    · rw [as1]
      dsimp only
      rw [hsz, List.length_cons]
      push_cast
      ring
    · intro p hp
      rw [am1] at hp
      dsimp only at hp
      rcases mem_mStore hp with hp | ⟨hpm, hpk⟩
      · subst hp
        exact ⟨w, by simp, rfl, hkeyW⟩
      · obtain ⟨j, hj, hjx, hjk⟩ := hm1 p hpm
        have hjw : j ≠ w := fun e => hwc (e ▸ hj)
        refine ⟨j, List.mem_cons_of_mem _ hj, hjx, ?_⟩
        rw [(hdataO j hjw).1, hjk]
    · intro j hj
      rw [am1]
      dsimp only
      rcases List.mem_cons.mp hj with hj | hj
      · subst hj
        rw [hkeyW, mLoad_mStore, if_pos rfl]
      · have hjw : j ≠ w := fun e => hwc (e ▸ hj)
        rw [(hdataO j hjw).1, mLoad_mStore]
        have hkne : ¬ key = (getNat la.nodePool j).key := by
          intro e
          have hmj := hm2 j hj
          rw [← e, hnew] at hmj
          exact Option.noConfusion hmj
        rw [if_neg hkne]
        exact hm2 j hj
  · rw [am1]
  · rw [as1]
  · rw [alen1]
    dsimp only
    rw [hlen3]

theorem setInsert_reuse_eq {l : LRU K V} {g : Nat} (key : K) (value : V)
    (exp : Int) (hfl : l.freeList = (g : Int))
    (hlt : ¬ l.maxSize ≤ l.size) :
    setInsert l key value exp =
      (fillStoreAdd { l with
        freeList := (getNat l.nodePool g).next,
        nodePool := (l.nodePool.set g { getNat l.nodePool g with
          prev := -1, next := -1, expiration := 0 }) } g key value exp,
       []) := by
  unfold setInsert
  rw [evictLoop_notfull _ hlt]
  dsimp only
  rw [acquireNode_free hfl]
  dsimp only
  rw [if_neg (not_lt.mpr (Int.natCast_nonneg g))]
  unfold fillStoreAdd
  dsimp only

theorem setInsert_grow_eq {l : LRU K V} (key : K) (value : V) (exp : Int)
    (hfl : l.freeList = -1) (hcap : l.nodePool.length < l.poolCap)
    (hlt : ¬ l.maxSize ≤ l.size) :
    setInsert l key value exp =
      (fillStoreAdd { l with nodePool := (l.nodePool ++
        [{ key := default, value := default, expiration := 0,
           prev := -1, next := -1 }]) } l.nodePool.length key value exp,
       []) := by
  unfold setInsert
  rw [evictLoop_notfull _ hlt]
  dsimp only
  rw [acquireNode_grow hfl hcap]
  dsimp only
  rw [if_neg (not_lt.mpr (Int.natCast_nonneg l.nodePool.length))]
  unfold fillStoreAdd
  dsimp only

theorem setInsert_fail_eq {l : LRU K V} (key : K) (value : V) (exp : Int)
    (hfl : l.freeList = -1) (hcap : l.poolCap ≤ l.nodePool.length)
    (hlt : ¬ l.maxSize ≤ l.size) :
    setInsert l key value exp = (l, []) := by
  unfold setInsert
  rw [evictLoop_notfull _ hlt]
  dsimp only
  rw [acquireNode_fail hfl hcap]
  dsimp only
  rw [if_pos (by decide : (-1 : Int) < 0)]

theorem setInsert_evict_eq {l : LRU K V} {t : Nat} (key : K) (value : V)
    (exp : Int) (hfull : l.maxSize ≤ l.size)
    (hnot : ¬ l.maxSize ≤ l.size - 1)
    (hpos : 1 ≤ l.size.toNat)
    (hefl : (evictBack l).1.freeList = (t : Int))
    (hems : (evictBack l).1.maxSize = l.maxSize)
    (hesz : (evictBack l).1.size = l.size - 1)
    (hetup : (evictBack l).2 = (default, default, true)) :
    setInsert l key value exp =
      (fillStoreAdd { (evictBack l).1 with
        freeList := (getNat (evictBack l).1.nodePool t).next,
        nodePool := ((evictBack l).1.nodePool.set t
          { getNat (evictBack l).1.nodePool t with
            prev := -1, next := -1, expiration := 0 }) } t key value exp,
       if l.onEv then [(default, default)] else []) := by
  unfold setInsert
  obtain ⟨n, hn⟩ : ∃ n, l.size.toNat = n + 1 :=
    ⟨l.size.toNat - 1, by omega⟩
  rw [hn, evictLoop, if_pos hfull]
  dsimp only
  rw [hetup]
  dsimp only
  rw [evictLoop_notfull n (by rw [hems, hesz]; exact hnot)]
  dsimp only
  rw [acquireNode_free hefl]
  dsimp only
  rw [if_neg (not_lt.mpr (Int.natCast_nonneg t))]
  unfold fillStoreAdd
  dsimp only
  rw [List.append_nil]

/-- `setInsert` when a free slot can be reused. -/
theorem setInsert_reuse {l : LRU K V} {c f' : List Nat} {g : Nat}
    (h : Represents l c (g :: f')) (hlt : ¬ l.maxSize ≤ l.size)
    (key : K) (value : V) (exp : Int) (hnew : mLoad l.m key = none) :
    InsertOutcome l (setInsert l key value exp).1 l.m c f' g key value exp ∧
    (setInsert l key value exp).2 = [] := by
  have hglt : g < l.nodePool.length := h.free_lt g (by simp)
  have hgc : g ∉ c := fun hx => h.disj g hx (by simp)
  have hgf' : g ∉ f' := (List.nodup_cons.mp h.free_nodup).1
  obtain ⟨hgnext, hfr'⟩ := h.hfree
  rw [setInsert_reuse_eq key value exp
    (h.hfleft.trans (headOr_cons g f' (-1))) hlt]
  dsimp only
  have hset : ∀ a, a ≠ g → getNat (l.nodePool.set g
      { getNat l.nodePool g with
        prev := -1, next := -1, expiration := 0 }) a = getNat l.nodePool a :=
    fun a ha => getNat_set_ne ha _
  obtain ⟨hrep, hm, hsz, hms, hdt, hoe, hpc, hlen, hkW, hvW, heW, hdat⟩ :=
    @fillStoreAdd_rep K V _ _ _ { l with
      freeList := (getNat l.nodePool g).next,
      nodePool := (l.nodePool.set g { getNat l.nodePool g with
        prev := -1, next := -1, expiration := 0 }) }
      c f' g
      (lseg_congr (fun a ha => hset a (fun e => hgc (e ▸ ha))) h.hchain)
      h.hhead h.htail
      (fseg_congr (fun a ha => hset a (fun e => hgf' (e ▸ ha))) hfr')
      (by dsimp only; rw [hgnext])
      (by dsimp only; rw [List.length_set]; exact h.hperm)
      (by
        intro p hp
        obtain ⟨j, hj, hjx, hjk⟩ := h.hmap1 p hp
        exact ⟨j, hj, hjx, by rw [hset j (fun e => hgc (e ▸ hj))]; exact hjk⟩)
      (by
        intro j hj
        rw [hset j (fun e => hgc (e ▸ hj))]
        exact h.hmap2 j hj)
      (by dsimp only; exact h.hsize)
      key value exp hnew
  refine ⟨⟨hrep, hm, ?_, hms, hdt, hoe, hpc, ?_, hkW, hvW, heW, ?_⟩, rfl⟩
  · rw [hsz]
    dsimp only
    rw [h.hsize]
  · left
    rw [hlen]
    dsimp only
    rw [List.length_set]
  · intro a ha
    refine sameData_trans (hdat a ha) ?_
    dsimp only
    rw [hset a ha]
    exact sameData_refl _

theorem getNat_oob {pool : List (lruNode K V)} {j : Nat}
    (h : pool.length ≤ j) : getNat pool j = default := by
  unfold getNat
  exact List.getD_eq_default _ _ h

/-- `setInsert` when the free list is empty and the pool grows. -/
theorem setInsert_grow {l : LRU K V} {c : List Nat}
    (h : Represents l c []) (hlt : ¬ l.maxSize ≤ l.size)
    (hcap : l.nodePool.length < l.poolCap)
    (key : K) (value : V) (exp : Int) (hnew : mLoad l.m key = none) :
    InsertOutcome l (setInsert l key value exp).1 l.m c []
      l.nodePool.length key value exp ∧
    (setInsert l key value exp).2 = [] := by
  have hcb : ∀ a ∈ c, a < l.nodePool.length := h.chain_lt
  have hgc : l.nodePool.length ∉ c := fun hx => absurd (hcb _ hx) (by omega)
  rw [setInsert_grow_eq key value exp (h.hfleft) hcap hlt]
  dsimp only
  have hset : ∀ a ∈ c, getNat (l.nodePool ++
      [{ key := default, value := default, expiration := 0,
         prev := -1, next := -1 }]) a = getNat l.nodePool a := by
    intro a ha
    unfold getNat
    rw [List.getD_append _ _ _ _ (hcb a ha)]
  obtain ⟨hrep, hm, hsz, hms, hdt, hoe, hpc, hlen, hkW, hvW, heW, hdat⟩ :=
    @fillStoreAdd_rep K V _ _ _ { l with nodePool := (l.nodePool ++
      [{ key := default, value := default, expiration := 0,
         prev := -1, next := -1 }]) }
      c [] l.nodePool.length
      (lseg_congr hset h.hchain)
      h.hhead h.htail (fseg_nil _)
      (by dsimp only; exact h.hfleft)
      (by
        dsimp only
        rw [List.length_append, List.length_singleton, List.range_succ]
        refine List.Perm.append ?_ (List.Perm.refl _)
        have := h.hperm
        rwa [List.append_nil] at this)
      (by
        intro p hp
        obtain ⟨j, hj, hjx, hjk⟩ := h.hmap1 p hp
        exact ⟨j, hj, hjx, by rw [hset j hj]; exact hjk⟩)
      (by
        intro j hj
        rw [hset j hj]
        exact h.hmap2 j hj)
      (by dsimp only; exact h.hsize)
      key value exp hnew
  refine ⟨⟨hrep, hm, ?_, hms, hdt, hoe, hpc, ?_, hkW, hvW, heW, ?_⟩, rfl⟩
  · rw [hsz]
    dsimp only
    rw [h.hsize]
  · right
    rw [hlen]
    dsimp only
    rw [List.length_append, List.length_singleton]
    exact ⟨rfl, hcap⟩
  · intro a ha
    refine sameData_trans (hdat a ha) ?_
    dsimp only
    by_cases hab : a < l.nodePool.length
    · unfold getNat
      rw [List.getD_append _ _ _ _ hab]
      exact sameData_refl _
    · rw [getNat_oob (by simp; omega), getNat_oob (by omega)]
      exact sameData_refl _

/-- `setInsert` at capacity: one eviction, then the freed slot is reused. -/
theorem setInsert_evict {l : LRU K V} {c' f : List Nat} {t : Nat}
    (h : Represents l (c' ++ [t]) f) (hfull : l.size = l.maxSize)
    (hmax : 1 ≤ l.maxSize)
    (key : K) (value : V) (exp : Int) (hnew : mLoad l.m key = none) :
    InsertOutcome l (setInsert l key value exp).1
      (mDelete l.m (getNat l.nodePool t).key) c' f t key value exp ∧
    (setInsert l key value exp).2 =
      (if l.onEv then [(default, default)] else []) := by
  obtain ⟨herep, hem, hesz, hems, hedt, heoe, hepc, helen, hedat, hetup⟩ :=
    evictBack_spec h
  have hsz1 : l.size = ((c' ++ [t]).length : Int) := h.hsize
  have hpos : 1 ≤ l.size.toNat := by
    have : (1 : Int) ≤ l.size := le_trans hmax (le_of_eq hfull.symm)
    omega
  have htf : t ∉ f := fun hx => h.disj t (by simp) hx
  have htc' : t ∉ c' := by
    have := h.chain_nodup
    rw [List.nodup_append] at this
    exact fun hx => this.2.2 hx (by simp)
  obtain ⟨htnext, hfr'⟩ := herep.hfree
  rw [setInsert_evict_eq key value exp (le_of_eq hfull.symm)
    (by omega) hpos (herep.hfleft.trans (headOr_cons t f (-1)))
    hems (by rw [hesz]) hetup]
  dsimp only
  have hset : ∀ a, a ≠ t → getNat ((evictBack l).1.nodePool.set t
      { getNat (evictBack l).1.nodePool t with
        prev := -1, next := -1, expiration := 0 }) a =
      getNat (evictBack l).1.nodePool a :=
    fun a ha => getNat_set_ne ha _
  obtain ⟨hrep, hm, hsz, hms, hdt, hoe, hpc, hlen, hkW, hvW, heW, hdat⟩ :=
    @fillStoreAdd_rep K V _ _ _ { (evictBack l).1 with
      freeList := (getNat (evictBack l).1.nodePool t).next,
      nodePool := ((evictBack l).1.nodePool.set t
        { getNat (evictBack l).1.nodePool t with
          prev := -1, next := -1, expiration := 0 }) }
      c' f t
      (lseg_congr (fun a ha => hset a (fun e => htc' (e ▸ ha)))
        herep.hchain)
      herep.hhead herep.htail
      (fseg_congr (fun a ha => hset a (fun e => htf (e ▸ ha))) hfr')
      (by dsimp only; rw [htnext])
      (by dsimp only; rw [List.length_set]; exact herep.hperm)
      (by
        intro p hp
        obtain ⟨j, hj, hjx, hjk⟩ := herep.hmap1 p hp
        exact ⟨j, hj, hjx, by rw [hset j (fun e => htc' (e ▸ hj))]; exact hjk⟩)
      (by
        intro j hj
        rw [hset j (fun e => htc' (e ▸ hj))]
        exact herep.hmap2 j hj)
      (by dsimp only; exact herep.hsize)
      key value exp
      (by
        rw [hem, mLoad_mDelete]
        split
        · rfl
        · exact hnew)
  refine ⟨⟨hrep, by rw [hm]; dsimp only; rw [hem], ?_, by rw [hms, hems],
    by rw [hdt, hedt], by rw [hoe, heoe], by rw [hpc, hepc], ?_,
    hkW, hvW, heW, ?_⟩, rfl⟩
  · rw [hsz]
    dsimp only
    rw [herep.hsize]
  · left
    rw [hlen]
    dsimp only
    rw [List.length_set, helen]
  · intro a ha
    refine sameData_trans (hdat a ha) ?_
    dsimp only
    rw [hset a ha]
    exact hedat a ha

theorem removeFromList_m_comm (l : LRU K V) (M : List (K × Int)) (idx : Int) :
    removeFromList { l with m := M } idx =
      { removeFromList l idx with m := M } := by
  unfold removeFromList
  dsimp only
  split <;> split <;> rfl

theorem releaseNode_m_comm (l : LRU K V) (M : List (K × Int)) (idx : Int) :
    releaseNode { l with m := M } idx =
      { releaseNode l idx with m := M } := by
  unfold releaseNode
  dsimp only
  split
  · rfl
  · rfl

/-- `removeRelease` with the index delete of the removed slot's key. -/
theorem removeRelease_rep {l : LRU K V} {c f : List Nat}
    (h : Represents l c f) (c₁ c₂ : List Nat) (j : Nat)
    (hc : c = c₁ ++ j :: c₂) :
    Represents (removeRelease l (j : Int)
        (mDelete l.m (getNat l.nodePool j).key)) (c₁ ++ c₂) (j :: f) ∧
    (removeRelease l (j : Int) (mDelete l.m (getNat l.nodePool j).key)).m =
      mDelete l.m (getNat l.nodePool j).key ∧
    (removeRelease l (j : Int)
      (mDelete l.m (getNat l.nodePool j).key)).size = l.size - 1 ∧
    (removeRelease l (j : Int)
      (mDelete l.m (getNat l.nodePool j).key)).maxSize = l.maxSize ∧
    (removeRelease l (j : Int)
      (mDelete l.m (getNat l.nodePool j).key)).defaultTTL = l.defaultTTL ∧
    (removeRelease l (j : Int)
      (mDelete l.m (getNat l.nodePool j).key)).onEv = l.onEv ∧
    (removeRelease l (j : Int)
      (mDelete l.m (getNat l.nodePool j).key)).poolCap = l.poolCap ∧
    (removeRelease l (j : Int)
      (mDelete l.m (getNat l.nodePool j).key)).nodePool.length =
      l.nodePool.length ∧
    (∀ a, a ≠ j → sameData (getNat (removeRelease l (j : Int)
      (mDelete l.m (getNat l.nodePool j).key)).nodePool a)
      (getNat l.nodePool a)) := by
  have hjlt : j < l.nodePool.length := h.chain_lt j (hc ▸ (by simp))
  have hjc₁c₂ : j ∉ c₁ ++ c₂ := by
    have := hc ▸ h.chain_nodup
    rw [List.nodup_append] at this
    intro hx
    rcases List.mem_append.mp hx with hx | hx
    · exact this.2.2 hx (by simp)
    · exact (List.nodup_cons.mp this.2.1).1 hx
  have hjf : j ∉ f := fun hx => h.disj j (hc ▸ (by simp)) hx
  obtain ⟨hseg, hhd, htl, hunt, hdata⟩ := removeFromList_spec h c₁ c₂ j hc
  obtain ⟨hm1, hs1, hf1, hms1, hdt1, hoe1, hpc1, hlen1⟩ :=
    removeFromList_frame l ((j : Nat) : Int)
  unfold removeRelease
  dsimp only
  generalize hgen : removeFromList l ((j : Nat) : Int) = l1 at *
  rw [releaseNode_eq]
  dsimp only
  rw [hlen1, if_neg (not_le.mpr hjlt)]
  dsimp only
  have hset : ∀ a, a ≠ j → getNat (l1.nodePool.set j
      { key := default, value := default, expiration := 0,
        prev := -1, next := l1.freeList }) a = getNat l1.nodePool a :=
    fun a ha => getNat_set_ne ha _
  have hsetT : getNat (l1.nodePool.set j
      { key := default, value := default, expiration := 0,
        prev := -1, next := l1.freeList }) j =
      { key := default, value := default, expiration := 0,
        prev := -1, next := l1.freeList } :=
    getNat_set_self (hlen1 ▸ hjlt) _
  have hfreeNotChain : ∀ a ∈ f, a ∉ c := fun a ha hx => h.disj a hx ha
  refine ⟨?_, rfl, ?_, hms1, hdt1, hoe1, hpc1, ?_, ?_⟩
  · refine ⟨?_, ?_, hhd, htl, ?_, ?_, ?_, ?_, ?_⟩
    · rw [List.length_set, hlen1]
      have p1 : ((c₁ ++ c₂) ++ j :: f).Perm (j :: ((c₁ ++ c₂) ++ f)) :=
        List.perm_middle
      have p2 : (c₁ ++ j :: c₂).Perm (j :: (c₁ ++ c₂)) := List.perm_middle
      have p2a : ((c₁ ++ j :: c₂) ++ f).Perm ((j :: (c₁ ++ c₂)) ++ f) :=
        p2.append_right f
      have p2b : ((c₁ ++ j :: c₂) ++ f).Perm (j :: ((c₁ ++ c₂) ++ f)) := by
        simpa using p2a
      exact p1.trans (p2b.symm.trans (hc ▸ h.hperm))
    · refine lseg_congr (fun a ha => ?_) hseg
      exact hset a (fun e => hjc₁c₂ (e ▸ ha))
    · refine ⟨?_, ?_⟩
      · rw [hsetT, hf1]
        exact h.hfleft
      · refine fseg_congr (fun a ha => ?_) h.hfree
        rw [hset a (fun e => hjf (e ▸ ha)),
          hunt a (hc ▸ hfreeNotChain a ha)]
    · rfl
    · rw [hs1, h.hsize, hc]
      push_cast
      simp
      omega
    · intro p hp
      obtain ⟨hpm, hpk⟩ := mem_mDelete hp
      obtain ⟨i, hi, hix, hik⟩ := h.hmap1 p hpm
      have hij : i ≠ j := by
        intro e
        exact hpk (by rw [← hik, e])
      have hicc : i ∈ c₁ ++ c₂ := by
        rw [hc] at hi
        rcases List.mem_append.mp hi with hi' | hi'
        · exact List.mem_append_left _ hi'
        · rcases List.mem_cons.mp hi' with hi'' | hi''
          · exact absurd hi'' hij
          · exact List.mem_append_right _ hi''
      refine ⟨i, hicc, hix, ?_⟩
      rw [hset i hij, (hdata i).1, hik]
    · intro i hi
      have hij : i ≠ j := fun e => hjc₁c₂ (e ▸ hi)
      rw [hset i hij, (hdata i).1]
      have hic : i ∈ c := by
        rw [hc]
        rcases List.mem_append.mp hi with hi' | hi'
        · exact List.mem_append_left _ hi'
        · exact List.mem_append_right _ (List.mem_cons_of_mem _ hi')
      have hkne : (getNat l.nodePool i).key ≠ (getNat l.nodePool j).key :=
        fun e => hij (h.key_inj hic (hc ▸ (by simp)) e)
      rw [mLoad_mDelete, if_neg hkne]
      exact h.hmap2 i hic
  · rw [hs1]
  · rw [List.length_set, hlen1]
  · intro a ha
    rw [hset a ha]
    exact hdata a

/-- Overwriting value/expiration of a slot preserves links and the key. -/
theorem upd_links (pool : List (lruNode K V)) (w : Nat) (value : V)
    (exp : Int) : ∀ a,
    (getNat (pool.set w { getNat pool w with
      value := value, expiration := exp }) a).prev = (getNat pool a).prev ∧
    (getNat (pool.set w { getNat pool w with
      value := value, expiration := exp }) a).next = (getNat pool a).next ∧
    (getNat (pool.set w { getNat pool w with
      value := value, expiration := exp }) a).key = (getNat pool a).key := by
  intro a
  by_cases haw : a = w
  · subst haw
    by_cases hb : a < pool.length
    · rw [getNat_set_self hb]
      exact ⟨rfl, rfl, rfl⟩
    · rw [List.set_eq_of_length_le (le_of_not_lt hb)]
      exact ⟨rfl, rfl, rfl⟩
  · rw [getNat_set_ne haw]
    exact ⟨rfl, rfl, rfl⟩

theorem SetWithTTL_none_eq {l : LRU K V} (key : K) (value : V) (ttl now : Int)
    (hnew : mLoad l.m key = none) :
    SetWithTTL l key value ttl now =
      setInsert l key value (if 0 < ttl then now + ttl else 0) := by
  unfold SetWithTTL
  rw [hnew]

/-- The update path of `SetWithTTL`: the key is present, so its node gets the
new value and expiration in place and moves to the front; nothing else —
index, size, free list, other slots — changes, and no eviction fires. -/
theorem SetWithTTL_update_rep {l : LRU K V} {c f : List Nat} {x : Int}
    (h : Represents l c f) (key : K) (value : V) (ttl now : Int)
    (hml : mLoad l.m key = some x) :
    ∃ (j : Nat) (c₁ c₂ : List Nat), (j : Int) = x ∧ c = c₁ ++ j :: c₂ ∧
    Represents (SetWithTTL l key value ttl now).1 (j :: (c₁ ++ c₂)) f ∧
    (SetWithTTL l key value ttl now).1.m = l.m ∧
    (SetWithTTL l key value ttl now).1.size = l.size ∧
    (SetWithTTL l key value ttl now).1.maxSize = l.maxSize ∧
    (SetWithTTL l key value ttl now).1.defaultTTL = l.defaultTTL ∧
    (SetWithTTL l key value ttl now).1.onEv = l.onEv ∧
    (SetWithTTL l key value ttl now).1.poolCap = l.poolCap ∧
    (SetWithTTL l key value ttl now).1.nodePool.length =
      l.nodePool.length ∧
    (getNat (SetWithTTL l key value ttl now).1.nodePool j).key = key ∧
    (getNat (SetWithTTL l key value ttl now).1.nodePool j).value = value ∧
    (getNat (SetWithTTL l key value ttl now).1.nodePool j).expiration =
      (if 0 < ttl then now + ttl else 0) ∧
    (∀ a, a ≠ j → sameData
      (getNat (SetWithTTL l key value ttl now).1.nodePool a)
      (getNat l.nodePool a)) ∧
    (SetWithTTL l key value ttl now).2 = [] := by
  obtain ⟨j, hj, hjx, hjk⟩ := h.mLoad_some_elim hml
  obtain ⟨c₁, c₂, hc⟩ := List.append_of_mem hj
  have hjlt : j < l.nodePool.length := h.chain_lt j hj
  refine ⟨j, c₁, c₂, hjx, hc, ?_⟩
  unfold SetWithTTL
  rw [hml]
  dsimp only
  rw [← hjx, if_pos ⟨Int.natCast_nonneg j, by exact_mod_cast hjlt⟩,
    getN_coe, if_pos hjk, setN_coe]
  dsimp only
  have hupd := upd_links l.nodePool j value
    (if 0 < ttl then now + ttl else 0)
  have hrep1 : Represents { l with nodePool := (l.nodePool.set j
      { getNat l.nodePool j with
        value := value,
        expiration := if 0 < ttl then now + ttl else 0 }) } c f := by
    refine ⟨?_, ?_, h.hhead, h.htail, ?_, h.hfleft, h.hsize, ?_, ?_⟩
    · dsimp only
      rw [List.length_set]
      exact h.hperm
    · exact lseg_congr_links (fun a _ => ⟨(hupd a).1, (hupd a).2.1⟩) h.hchain
    · exact fseg_congr_links (fun a _ => (hupd a).2.1) h.hfree
    · intro p hp
      obtain ⟨i, hi, hix, hik⟩ := h.hmap1 p hp
      exact ⟨i, hi, hix, by rw [(hupd i).2.2]; exact hik⟩
    · intro i hi
      rw [(hupd i).2.2]
      exact h.hmap2 i hi
  obtain ⟨mrep, mm, msz, mfl, mms, mdt, moe, mpc, mlen, mdata⟩ :=
    moveToFront_rep hrep1 c₁ c₂ j hc
  have hjset : getNat (l.nodePool.set j { getNat l.nodePool j with
      value := value, expiration := if 0 < ttl then now + ttl else 0 }) j =
      { getNat l.nodePool j with
        value := value,
        expiration := if 0 < ttl then now + ttl else 0 } :=
    getNat_set_self hjlt _
  refine ⟨mrep, ?_, ?_, ?_, ?_, ?_, ?_, ?_, ?_, ?_, ?_, ?_, rfl⟩
  · rw [mm]
  · rw [msz]
  · rw [mms]
  · rw [mdt]
  · rw [moe]
  · rw [mpc]
  · rw [mlen]
    dsimp only
    rw [List.length_set]
  · rw [(mdata j).1]
    dsimp only
    rw [hjset]
    exact hjk
  · rw [(mdata j).2.1]
    dsimp only
    rw [hjset]
  · rw [(mdata j).2.2]
    dsimp only
    rw [hjset]
  · intro a ha
    refine sameData_trans (mdata a) ?_
    dsimp only
    rw [getNat_set_ne ha]
    exact sameData_refl _

theorem Get_none_eq {l : LRU K V} (key : K) (now : Int)
    (hml : mLoad l.m key = none) : Get l key now = (l, default, false) := by
  unfold Get
  rw [hml]

/-- `Get` on a present, unexpired key: move-to-front plus the stored value. -/
theorem Get_hit_rep {l : LRU K V} {c f : List Nat} {x : Int}
    (h : Represents l c f) (key : K) (now : Int)
    (hml : mLoad l.m key = some x)
    (hlive : ¬(0 < (getNat l.nodePool x.toNat).expiration ∧
      (getNat l.nodePool x.toNat).expiration < now)) :
    ∃ (j : Nat) (c₁ c₂ : List Nat), (j : Int) = x ∧ c = c₁ ++ j :: c₂ ∧
    Represents (Get l key now).1 (j :: (c₁ ++ c₂)) f ∧
    (Get l key now).1.m = l.m ∧
    (Get l key now).1.size = l.size ∧
    (Get l key now).1.freeList = l.freeList ∧
    (Get l key now).1.maxSize = l.maxSize ∧
    (Get l key now).1.defaultTTL = l.defaultTTL ∧
    (Get l key now).1.onEv = l.onEv ∧
    (Get l key now).1.poolCap = l.poolCap ∧
    (Get l key now).1.nodePool.length = l.nodePool.length ∧
    (∀ a, sameData (getNat (Get l key now).1.nodePool a)
      (getNat l.nodePool a)) ∧
    (Get l key now).2 = ((getNat l.nodePool j).value, true) := by
  obtain ⟨j, hj, hjx, hjk⟩ := h.mLoad_some_elim hml
  obtain ⟨c₁, c₂, hc⟩ := List.append_of_mem hj
  have hjlt : j < l.nodePool.length := h.chain_lt j hj
  have hxj : x.toNat = j := by rw [← hjx]; simp
  rw [hxj] at hlive
  refine ⟨j, c₁, c₂, hjx, hc, ?_⟩
  have hb : ¬(((j : Nat) : Int) < 0 ∨ (l.nodePool.length : Int) ≤ ((j : Nat) : Int)) := by
    push_neg
    exact ⟨Int.natCast_nonneg j, by exact_mod_cast hjlt⟩
  unfold Get
  rw [hml]
  dsimp only
  rw [← hjx, if_neg hb, getN_coe,
    if_neg (not_not_intro hjk), if_neg hlive]
  obtain ⟨mrep, mm, msz, mfl, mms, mdt, moe, mpc, mlen, mdata⟩ :=
    moveToFront_rep h c₁ c₂ j hc
  exact ⟨mrep, mm, msz, mfl, mms, mdt, moe, mpc, mlen, mdata, rfl⟩

/-- `Get` on a present but expired key: lazy removal (unlink, index delete,
slot release, size decrement) and a not-found result. -/
theorem Get_expired_rep {l : LRU K V} {c f : List Nat} {x : Int}
    (h : Represents l c f) (key : K) (now : Int)
    (hml : mLoad l.m key = some x)
    (hexp : 0 < (getNat l.nodePool x.toNat).expiration ∧
      (getNat l.nodePool x.toNat).expiration < now) :
    ∃ (j : Nat) (c₁ c₂ : List Nat), (j : Int) = x ∧ c = c₁ ++ j :: c₂ ∧
    Represents (Get l key now).1 (c₁ ++ c₂) (j :: f) ∧
    (Get l key now).1.m = mDelete l.m key ∧
    (Get l key now).1.size = l.size - 1 ∧
    (Get l key now).1.maxSize = l.maxSize ∧
    (Get l key now).1.defaultTTL = l.defaultTTL ∧
    (Get l key now).1.onEv = l.onEv ∧
    (Get l key now).1.poolCap = l.poolCap ∧
    (Get l key now).1.nodePool.length = l.nodePool.length ∧
    (∀ a, a ≠ j → sameData (getNat (Get l key now).1.nodePool a)
      (getNat l.nodePool a)) ∧
    (Get l key now).2 = (default, false) := by
  obtain ⟨j, hj, hjx, hjk⟩ := h.mLoad_some_elim hml
  obtain ⟨c₁, c₂, hc⟩ := List.append_of_mem hj
  have hjlt : j < l.nodePool.length := h.chain_lt j hj
  have hxj : x.toNat = j := by rw [← hjx]; simp
  rw [hxj] at hexp
  refine ⟨j, c₁, c₂, hjx, hc, ?_⟩
  have hb : ¬(((j : Nat) : Int) < 0 ∨ (l.nodePool.length : Int) ≤ ((j : Nat) : Int)) := by
    push_neg
    exact ⟨Int.natCast_nonneg j, by exact_mod_cast hjlt⟩
  unfold Get
  rw [hml]
  dsimp only
  rw [← hjx, if_neg hb, getN_coe,
    if_neg (not_not_intro hjk), if_pos hexp]
  have hS : ({ releaseNode { removeFromList l ((j : Nat) : Int) with
      m := mDelete (removeFromList l ((j : Nat) : Int)).m key }
      ((j : Nat) : Int) with
      size := (releaseNode { removeFromList l ((j : Nat) : Int) with
        m := mDelete (removeFromList l ((j : Nat) : Int)).m key }
        ((j : Nat) : Int)).size - 1 } : LRU K V) =
      removeRelease l ((j : Nat) : Int)
        (mDelete l.m (getNat l.nodePool j).key) := by
    unfold removeRelease
    rw [(removeFromList_frame l ((j : Nat) : Int)).1, hjk]
  rw [hS]
  obtain ⟨rrep, rm, rsz, rms, rdt, roe, rpc, rlen, rdata⟩ :=
    removeRelease_rep h c₁ c₂ j hc
  exact ⟨rrep, by rw [rm, hjk], rsz, rms, rdt, roe, rpc, rlen, rdata, rfl⟩

/-- `Peek` returns exactly the `(value, found)` pair `Get` computes; the two
differ only in `Get`'s state effects (reorder on hit, removal on expiry). -/
theorem Peek_eq_Get (l : LRU K V) (key : K) (now : Int) :
    Peek l key now = (Get l key now).2 := by
  unfold Peek Get
  cases mLoad l.m key with
  | none => rfl
  | some idx =>
    dsimp only
    split_ifs <;> rfl

theorem Has_none {l : LRU K V} (key : K) (now : Int)
    (hml : mLoad l.m key = none) : Has l key now = false := by
  unfold Has Peek
  rw [hml]

/-- `Has` on a present, unexpired key. -/
theorem Has_true {l : LRU K V} {c f : List Nat} {x : Int}
    (h : Represents l c f) (key : K) (now : Int)
    (hml : mLoad l.m key = some x)
    (hlive : ¬(0 < (getNat l.nodePool x.toNat).expiration ∧
      (getNat l.nodePool x.toNat).expiration < now)) :
    Has l key now = true := by
  obtain ⟨j, hj, hjx, hjk⟩ := h.mLoad_some_elim hml
  have hjlt : j < l.nodePool.length := h.chain_lt j hj
  have hxj : x.toNat = j := by rw [← hjx]; simp
  rw [hxj] at hlive
  have hb : ¬(((j : Nat) : Int) < 0 ∨
      (l.nodePool.length : Int) ≤ ((j : Nat) : Int)) := by
    push_neg
    exact ⟨Int.natCast_nonneg j, by exact_mod_cast hjlt⟩
  unfold Has Peek
  rw [hml, ← hjx]
  dsimp only
  rw [if_neg hb, getN_coe, if_neg (not_not_intro hjk), if_neg hlive]

theorem mLoad_mStore_self (m : List (K × Int)) (k : K) (i : Int) :
    mLoad (mStore m k i) k = some i := by
  rw [mLoad_mStore, if_pos rfl]

theorem mLoad_mDelete_self (m : List (K × Int)) (k : K) :
    mLoad (mDelete m k) k = none := by
  rw [mLoad_mDelete, if_pos rfl]

theorem headOr_neg_one {f : List Nat} (h : headOr f (-1) = -1) : f = [] := by
  cases f with
  | nil => rfl
  | cons a rest =>
    rw [headOr_cons] at h
    omega

/-- Successive links along the chain. -/
theorem Represents.chain_next {l : LRU K V} {c f : List Nat}
    (h : Represents l c f) {c₁ : List Nat} {b : Nat} {c₂ : List Nat}
    (hc : c = c₁ ++ b :: c₂) :
    (getNat l.nodePool b).next = headOr c₂ (-1) := by
  have := h.hchain
  rw [hc, lseg_append, lseg_cons] at this
  exact this.2.2.1

theorem Delete_none_eq {l : LRU K V} (key : K)
    (hml : mLoad l.m key = none) : Delete l key = (l, false) := by
  unfold Delete
  rw [hml]

set_option maxHeartbeats 800000 in
/-- `Delete` on a present key: unlink, index delete, slot release, size
decrement, and a `true` result. -/
theorem Delete_found_rep {l : LRU K V} {c f : List Nat} {x : Int}
    (h : Represents l c f) (key : K)
    (hml : mLoad l.m key = some x) :
    ∃ (j : Nat) (c₁ c₂ : List Nat), (j : Int) = x ∧ c = c₁ ++ j :: c₂ ∧
    Represents (Delete l key).1 (c₁ ++ c₂) (j :: f) ∧
    (Delete l key).1.m = mDelete l.m key ∧
    (Delete l key).1.size = l.size - 1 ∧
    (Delete l key).1.maxSize = l.maxSize ∧
    (Delete l key).1.defaultTTL = l.defaultTTL ∧
    (Delete l key).1.onEv = l.onEv ∧
    (Delete l key).1.poolCap = l.poolCap ∧
    (Delete l key).1.nodePool.length = l.nodePool.length ∧
    (∀ a, a ≠ j → sameData (getNat (Delete l key).1.nodePool a)
      (getNat l.nodePool a)) ∧
    (Delete l key).2 = true := by
  obtain ⟨j, hj, hjx, hjk⟩ := h.mLoad_some_elim hml
  obtain ⟨c₁, c₂, hc⟩ := List.append_of_mem hj
  have hjlt : j < l.nodePool.length := h.chain_lt j hj
  have hb : ¬(((j : Nat) : Int) < 0 ∨
      (l.nodePool.length : Int) ≤ ((j : Nat) : Int) ∨
      (getN l.nodePool ((j : Nat) : Int)).key ≠ key) := by
    push_neg
    refine ⟨by positivity, by exact_mod_cast hjlt, ?_⟩
    rw [getN_coe]
    exact hjk
  have hS : ({ releaseNode (removeFromList { l with m := mDelete l.m key }
      ((j : Nat) : Int)) ((j : Nat) : Int) with
      size := (releaseNode (removeFromList { l with m := mDelete l.m key }
        ((j : Nat) : Int)) ((j : Nat) : Int)).size - 1 } : LRU K V) =
      removeRelease l ((j : Nat) : Int)
        (mDelete l.m (getNat l.nodePool j).key) := by
    unfold removeRelease
    dsimp only
    rw [removeFromList_m_comm, hjk]
  have hD : Delete l key =
      (removeRelease l ((j : Nat) : Int)
        (mDelete l.m (getNat l.nodePool j).key), true) := by
    unfold Delete
    rw [hml]
    dsimp only
    rw [← hjx, if_neg hb]
    rw [hS]
  refine ⟨j, c₁, c₂, hjx, hc, ?_⟩
  rw [hD]
  obtain ⟨rrep, rm, rsz, rms, rdt, roe, rpc, rlen, rdata⟩ :=
    removeRelease_rep h c₁ c₂ j hc
  exact ⟨rrep, by rw [rm, hjk], rsz, rms, rdt, roe, rpc, rlen, rdata, rfl⟩

theorem addToFront_m_comm (l : LRU K V) (M : List (K × Int)) (idx : Int) :
    addToFront { l with m := M } idx = { addToFront l idx with m := M } := by
  unfold addToFront
  dsimp only
  split
  · rfl
  · rfl

/-- Storing the index entry before or after the push to front yields the same
state. -/
theorem storeThenAdd (l : LRU K V) (key : K) (i : Int) :
    ({ { addToFront l i with m := mStore (addToFront l i).m key i } with
       size := ({ addToFront l i with
         m := mStore (addToFront l i).m key i } : LRU K V).size + 1 } :
       LRU K V) =
    { addToFront { l with m := mStore l.m key i } i with
      size := (addToFront { l with m := mStore l.m key i } i).size + 1 } := by
  unfold addToFront
  dsimp only
  split
  · rfl
  · rfl

/-- `GetOrSet`'s miss tail produces exactly the `setInsert` state and events
(the two interleave the index store and the list push differently, with the
same result). -/
theorem getOrSetMiss_state (l : LRU K V) (key : K) (value : V) (exp : Int) :
    (getOrSetMiss l key value exp).1 = (setInsert l key value exp).1 ∧
    (getOrSetMiss l key value exp).2.2.2 = (setInsert l key value exp).2 := by
  unfold getOrSetMiss setInsert
  dsimp only
  split
  · exact ⟨rfl, rfl⟩
  · constructor
    · dsimp only
      exact storeThenAdd _ key _
    · rfl

theorem Preserves_trans {l s u : LRU K V} (h1 : Preserves l s)
    (h2 : Preserves s u) : Preserves l u := by
  obtain ⟨hi, hms, hdt, hoe, hpc, hlen⟩ := h1
  obtain ⟨hi2, hms2, hdt2, hoe2, hpc2, hlen2⟩ := h2
  refine ⟨hi2, hms2.trans hms, hdt2.trans hdt, hoe2.trans hoe,
    hpc2.trans hpc, ?_⟩
  rw [hpc] at hlen2
  omega

theorem Preserves_self {l : LRU K V} (h : Inv l) : Preserves l l :=
  ⟨h, rfl, rfl, rfl, rfl, le_max_left _ _⟩

/-- Inserting a fresh key under the invariant: either a full successful
`InsertOutcome` within capacity, or the silent failure, which requires an
exhausted free list and a pool already at the (externally resized) cap. -/
theorem setInsert_cases {l : LRU K V} {c f : List Nat}
    (h : Represents l c f) (hms : 1 ≤ l.maxSize) (hsz : l.size ≤ l.maxSize)
    (key : K) (value : V) (exp : Int) (hnew : mLoad l.m key = none) :
    (∃ (w : Nat) (cK fK : List Nat) (mPre : List (K × Int)),
      InsertOutcome l (setInsert l key value exp).1 mPre cK fK w key value
        exp ∧ (cK.length : Int) + 1 ≤ l.maxSize) ∨
    (setInsert l key value exp = (l, []) ∧ l.freeList = -1 ∧
      l.poolCap ≤ l.nodePool.length ∧ ¬ l.maxSize ≤ l.size) := by
  by_cases hfull : l.size = l.maxSize
  · have hlen : 1 ≤ c.length := by
      have h1 : (1 : Int) ≤ (c.length : Int) := by
        rw [← h.hsize, hfull]
        exact hms
      exact_mod_cast h1
    rcases List.eq_nil_or_concat c with rfl | ⟨c', t, rfl⟩
    · simp at hlen
    · rw [List.concat_eq_append] at h
      obtain ⟨ho, hev⟩ := setInsert_evict h hfull hms key value exp hnew
      left
      refine ⟨t, c', f, _, ho, ?_⟩
      have h1 := h.hsize
      rw [hfull] at h1
      simp only [List.length_append, List.length_singleton] at h1
      rw [h1]
      push_cast
      omega
  · have hlt : ¬ l.maxSize ≤ l.size := fun hle => hfull (le_antisymm hsz hle)
    cases f with
    | cons g f' =>
      obtain ⟨ho, hev⟩ := setInsert_reuse h hlt key value exp hnew
      left
      refine ⟨g, c, f', _, ho, ?_⟩
      have h1 := h.hsize
      omega
    | nil =>
      by_cases hcap : l.nodePool.length < l.poolCap
      · obtain ⟨ho, hev⟩ := setInsert_grow h hlt hcap key value exp hnew
        left
        refine ⟨l.nodePool.length, c, [], _, ho, ?_⟩
        have h1 := h.hsize
        omega
      · right
        have hfl : l.freeList = -1 := by
          rw [h.hfleft, headOr_nil]
        exact ⟨setInsert_fail_eq key value exp hfl (le_of_not_lt hcap) hlt,
          hfl, le_of_not_lt hcap, hlt⟩

/-- `SetWithTTL` preserves the invariant and the configuration. -/
theorem SetWithTTL_preserves {l : LRU K V} (h : Inv l) (key : K) (value : V)
    (ttl now : Int) : Preserves l (SetWithTTL l key value ttl now).1 := by
  obtain ⟨⟨c, f, hrep⟩, hms, hsz⟩ := h
  cases hml : mLoad l.m key with
  | some x =>
    obtain ⟨j, c₁, c₂, hjx, hc, mrep, mm, msz, mms, mdt, moe, mpc, mlen, mk,
      mv, me, mdata, mev⟩ := SetWithTTL_update_rep hrep key value ttl now hml
    refine ⟨⟨⟨_, _, mrep⟩, by rw [mms]; exact hms, ?_⟩, mms, mdt, moe, mpc,
      ?_⟩
    · rw [msz, mms]
      exact hsz
    · rw [mlen]
      exact le_max_left _ _
  | none =>
    rw [SetWithTTL_none_eq key value ttl now hml]
    rcases setInsert_cases hrep hms hsz key value _ hml with
      ⟨w, cK, fK, mPre, ho, hbound⟩ | ⟨heq, _, _, _⟩
    · obtain ⟨orep, om, osz, oms, odt, ooe, opc, olen, okk, ovv, oee, odat⟩ :=
        ho
      refine ⟨⟨⟨_, _, orep⟩, by rw [oms]; exact hms, ?_⟩, oms, odt, ooe, opc,
        ?_⟩
      · rw [osz, oms]
        exact hbound
      · rcases olen with h1 | ⟨h1, h2⟩
        · rw [h1]
          exact le_max_left _ _
        · rw [h1]
          have h3 := le_max_right l.nodePool.length l.poolCap
          omega
    · rw [heq]
      exact ⟨⟨⟨_, _, hrep⟩, hms, hsz⟩, rfl, rfl, rfl, rfl, le_max_left _ _⟩

/-- `Set` preserves the invariant and the configuration. -/
theorem Set_preserves {l : LRU K V} (h : Inv l) (key : K) (value : V)
    (now : Int) : Preserves l (Set l key value now).1 :=
  SetWithTTL_preserves h key value l.defaultTTL now

theorem setInsert_preserves {l : LRU K V} {c f : List Nat}
    (hrep : Represents l c f) (hms : 1 ≤ l.maxSize) (hsz : l.size ≤ l.maxSize)
    (key : K) (value : V) (exp : Int) (hnew : mLoad l.m key = none) :
    Preserves l (setInsert l key value exp).1 := by
  rcases setInsert_cases hrep hms hsz key value exp hnew with
    ⟨w, cK, fK, mPre, ho, hbound⟩ | ⟨heq, _, _, _⟩
  · obtain ⟨orep, om, osz, oms, odt, ooe, opc, olen, okk, ovv, oee, odat⟩ := ho
    refine ⟨⟨⟨_, _, orep⟩, by rw [oms]; exact hms, ?_⟩, oms, odt, ooe, opc, ?_⟩
    · rw [osz, oms]
      exact hbound
    · rcases olen with h1 | ⟨h1, h2⟩
      · rw [h1]
        exact le_max_left _ _
      · rw [h1]
        have h3 := le_max_right l.nodePool.length l.poolCap
        omega
  · rw [heq]
    exact ⟨⟨⟨_, _, hrep⟩, hms, hsz⟩, rfl, rfl, rfl, rfl, le_max_left _ _⟩

/-- `Get` preserves the invariant and the configuration. -/
theorem Get_preserves {l : LRU K V} (h : Inv l) (key : K) (now : Int) :
    Preserves l (Get l key now).1 := by
  obtain ⟨⟨c, f, hrep⟩, hms, hsz⟩ := h
  cases hml : mLoad l.m key with
  | none =>
    rw [Get_none_eq key now hml]
    exact Preserves_self ⟨⟨_, _, hrep⟩, hms, hsz⟩
  | some x =>
    by_cases hexp : 0 < (getNat l.nodePool x.toNat).expiration ∧
        (getNat l.nodePool x.toNat).expiration < now
    · obtain ⟨j, c₁, c₂, hjx, hc, grep, gm, gsz, gms, gdt, goe, gpc, glen,
        gdata, gres⟩ := Get_expired_rep hrep key now hml hexp
      refine ⟨⟨⟨_, _, grep⟩, by rw [gms]; exact hms, ?_⟩, gms, gdt, goe, gpc,
        ?_⟩
      · rw [gsz, gms]
        omega
      · rw [glen]
        exact le_max_left _ _
    · obtain ⟨j, c₁, c₂, hjx, hc, grep, gm, gsz, gfl, gms, gdt, goe, gpc,
        glen, gdata, gres⟩ := Get_hit_rep hrep key now hml hexp
      refine ⟨⟨⟨_, _, grep⟩, by rw [gms]; exact hms, ?_⟩, gms, gdt, goe, gpc,
        ?_⟩
      · rw [gsz, gms]
        exact hsz
      · rw [glen]
        exact le_max_left _ _

/-- `Delete` preserves the invariant and the configuration. -/
theorem Delete_preserves {l : LRU K V} (h : Inv l) (key : K) :
    Preserves l (Delete l key).1 := by
  obtain ⟨⟨c, f, hrep⟩, hms, hsz⟩ := h
  cases hml : mLoad l.m key with
  | none =>
    rw [Delete_none_eq key hml]
    exact Preserves_self ⟨⟨_, _, hrep⟩, hms, hsz⟩
  | some x =>
    obtain ⟨j, c₁, c₂, hjx, hc, drep, dm, dsz, dms, ddt, doe, dpc, dlen,
      ddata, dres⟩ := Delete_found_rep hrep key hml
    refine ⟨⟨⟨_, _, drep⟩, by rw [dms]; exact hms, ?_⟩, dms, ddt, doe, dpc,
      ?_⟩
    · rw [dsz, dms]
      omega
    · rw [dlen]
      exact le_max_left _ _

/-- `Clear` resets to the empty representation. -/
theorem Clear_preserves {l : LRU K V} (h : Inv l) :
    Preserves l (Clear l).1 := by
  obtain ⟨_, hms, _⟩ := h
  have hrep0 : Represents (Clear l).1 [] [] := by
    refine ⟨by simp [Clear], trivial, rfl, rfl, trivial, rfl, by simp [Clear],
      ?_, ?_⟩
    · intro p hp
      simp [Clear] at hp
    · intro j hj
      simp at hj
  exact ⟨⟨⟨[], [], hrep0⟩, hms, by change (0 : Int) ≤ l.maxSize; omega⟩,
    rfl, rfl, rfl, rfl, by change (0 : Nat) ≤ _; omega⟩

/-- The constructor establishes the invariant. -/
theorem NewLRUWithConfig_inv (maxSize ttl : Int) (onEv : Bool) :
    Inv (NewLRUWithConfig maxSize ttl onEv : LRU K V) := by
  refine ⟨⟨[], [], ⟨by simp [NewLRUWithConfig], trivial, rfl, rfl, trivial,
    rfl, by simp [NewLRUWithConfig], by simp [NewLRUWithConfig], by simp⟩⟩,
    ?_, ?_⟩
  · show (1 : Int) ≤ if maxSize ≤ 0 then 1000 else maxSize
    split_ifs <;> omega
  · show (0 : Int) ≤ if maxSize ≤ 0 then 1000 else maxSize
    split_ifs <;> omega

/-- `GetOrSet` preserves the invariant and the configuration. -/
theorem GetOrSet_preserves {l : LRU K V} (h : Inv l) (key : K) (value : V)
    (ttl now : Int) : Preserves l (GetOrSet l key value ttl now).1 := by
  obtain ⟨⟨c, f, hrep⟩, hms, hsz⟩ := h
  unfold GetOrSet
  dsimp only
  cases hml : mLoad l.m key with
  | none =>
    have hg : Get l key now = (l, default, false) := Get_none_eq key now hml
    rw [hg]
    dsimp only
    rw [if_neg Bool.false_ne_true, hml]
    rw [(getOrSetMiss_state l key value _).1]
    exact setInsert_preserves hrep hms hsz key value _ hml
  | some x =>
    by_cases hexp : 0 < (getNat l.nodePool x.toNat).expiration ∧
        (getNat l.nodePool x.toNat).expiration < now
    · obtain ⟨j, c₁, c₂, hjx, hc, grep, gm, gsz, gms, gdt, goe, gpc, glen,
        gdata, gres⟩ := Get_expired_rep hrep key now hml hexp
      have hcond : ¬((Get l key now).2.2 = true) := by
        rw [gres]
        simp
      rw [if_neg hcond]
      have hml2 : mLoad (Get l key now).1.m key = none := by
        rw [gm, mLoad_mDelete_self]
      rw [hml2]
      dsimp only
      rw [(getOrSetMiss_state (Get l key now).1 key value _).1]
      have hpres1 : Preserves l (Get l key now).1 :=
        Get_preserves ⟨⟨_, _, hrep⟩, hms, hsz⟩ key now
      refine Preserves_trans hpres1 ?_
      obtain ⟨⟨c2, f2, hrep2⟩, hms2, hsz2⟩ := hpres1.1
      exact setInsert_preserves hrep2 hms2 hsz2 key value _ hml2
    · obtain ⟨j, c₁, c₂, hjx, hc, grep, gm, gsz, gfl, gms, gdt, goe, gpc,
        glen, gdata, gres⟩ := Get_hit_rep hrep key now hml hexp
      have hcond : (Get l key now).2.2 = true := by rw [gres]
      rw [if_pos hcond]
      dsimp only
      refine ⟨⟨⟨_, _, grep⟩, by rw [gms]; exact hms, ?_⟩, gms, gdt, goe, gpc,
        ?_⟩
      · rw [gsz, gms]
        exact hsz
      · rw [glen]
        exact le_max_left _ _

/-- `GetOrCompute` preserves the invariant and the configuration. -/
theorem GetOrCompute_preserves {l : LRU K V} (h : Inv l) (key : K)
    (fnVal : V) (fnTtl now : Int) :
    Preserves l (GetOrCompute l key fnVal fnTtl now).1 := by
  unfold GetOrCompute
  dsimp only
  by_cases hcond : (Get l key now).2.2 = true
  · rw [if_pos hcond]
    exact Get_preserves h key now
  · rw [if_neg hcond]
    dsimp only
    refine Preserves_trans (Get_preserves h key now) ?_
    exact GetOrSet_preserves (Get_preserves h key now).1 key fnVal fnTtl now

/-- The `Resize` eviction loop: with enough fuel it lands at or below the new
capacity, keeping the representation and the configuration. -/
theorem resizeLoop_inv : ∀ (fuel : Nat) (l : LRU K V) (c f : List Nat),
    Represents l c f → 1 ≤ l.maxSize → (l.size - l.maxSize).toNat ≤ fuel →
    ∃ c' f', Represents (resizeLoop fuel l).1 c' f' ∧
      (resizeLoop fuel l).1.size ≤ l.maxSize ∧
      (resizeLoop fuel l).1.maxSize = l.maxSize ∧
      (resizeLoop fuel l).1.defaultTTL = l.defaultTTL ∧
      (resizeLoop fuel l).1.onEv = l.onEv ∧
      (resizeLoop fuel l).1.poolCap = l.poolCap ∧
      (resizeLoop fuel l).1.nodePool.length = l.nodePool.length
  | 0, l, c, f, h, hms, hfuel => by
    refine ⟨c, f, h, ?_, rfl, rfl, rfl, rfl, rfl⟩
    show l.size ≤ l.maxSize
    omega
  | fuel + 1, l, c, f, h, hms, hfuel => by
    by_cases hc : l.maxSize < l.size
    · rw [resizeLoop, if_pos hc]
      dsimp only
      have hlen : 1 ≤ c.length := by
        have h1 := h.hsize
        omega
      rcases List.eq_nil_or_concat c with rfl | ⟨c', t, rfl⟩
      · simp at hlen
      · rw [List.concat_eq_append] at h
        obtain ⟨erep, em, esz, ems, edt, eoe, epc, elen, edat, etup⟩ :=
          evictBack_spec h
        obtain ⟨c'', f'', ih, ihsz, ihms, ihdt, ihoe, ihpc, ihlen⟩ :=
          resizeLoop_inv fuel (evictBack l).1 c' (t :: f) erep
            (by rw [ems]; exact hms) (by rw [esz, ems]; omega)
        refine ⟨c'', f'', ih, ?_, ?_, ?_, ?_, ?_, ?_⟩
        · rw [ems] at ihsz
          exact ihsz
        · rw [ihms, ems]
        · rw [ihdt, edt]
        · rw [ihoe, eoe]
        · rw [ihpc, epc]
        · rw [ihlen, elen]
    · rw [resizeLoop, if_neg hc]
      exact ⟨c, f, h, not_lt.mp hc, rfl, rfl, rfl, rfl, rfl⟩

/-- `Resize` preserves the invariant (against the *new* capacity). -/
theorem Resize_inv {l : LRU K V} (h : Inv l) (ms : Int) :
    Inv (Resize l ms).1 := by
  obtain ⟨⟨c, f, hrep⟩, hms, hsz⟩ := h
  have h0 : 0 ≤ l.size := by
    rw [hrep.hsize]
    positivity
  unfold Resize
  dsimp only
  have hms1 : (1 : Int) ≤ (if ms ≤ 0 then 1000 else ms) := by
    split_ifs <;> omega
  have hrep1 : Represents
      ({ l with maxSize := if ms ≤ 0 then 1000 else ms } : LRU K V) c f :=
    ⟨hrep.hperm, hrep.hchain, hrep.hhead, hrep.htail, hrep.hfree,
     hrep.hfleft, hrep.hsize, hrep.hmap1, hrep.hmap2⟩
  obtain ⟨c', f', hrep2, hsz2, hms2, _, _, _, _⟩ :=
    resizeLoop_inv l.size.toNat
      ({ l with maxSize := if ms ≤ 0 then 1000 else ms } : LRU K V) c f
      hrep1 hms1 (by dsimp only; omega)
  refine ⟨⟨c', f', hrep2⟩, ?_, ?_⟩
  · rw [hms2]
    exact hms1
  · rw [hms2]
    exact hsz2

theorem purgeKeep_false {pool : List (lruNode K V)} {now : Int} {j : Nat}
    (hx : 0 < (getNat pool j).expiration ∧
      (getNat pool j).expiration < now) :
    purgeKeep pool now j = false := by
  unfold purgeKeep
  simp only [decide_eq_false_iff_not, not_not]
  exact hx

theorem purgeKeep_true {pool : List (lruNode K V)} {now : Int} {j : Nat}
    (hx : ¬(0 < (getNat pool j).expiration ∧
      (getNat pool j).expiration < now)) :
    purgeKeep pool now j = true := by
  unfold purgeKeep
  simp only [decide_eq_true_eq]
  exact hx

/-- Deleting the index entry before unlink/release (the `Delete` /
`PurgeExpired` order) also produces `removeRelease`. -/
theorem mFirst_removeRelease (l : LRU K V) (b : Int) (kk : K) :
    ({ releaseNode (removeFromList { l with m := mDelete l.m kk } b) b with
       size := (releaseNode (removeFromList { l with m := mDelete l.m kk }
         b) b).size - 1 } : LRU K V) =
      removeRelease l b (mDelete l.m kk) := by
  unfold removeRelease
  dsimp only
  rw [removeFromList_m_comm]

/-- The `PurgeExpired` walk over the unvisited suffix `c₂` of the chain: it
removes exactly the expired suffix entries (keeping `c₁` and the rest),
counts them, decrements the size accordingly, keeps the configuration, and
never adds index entries. -/
theorem purgeLoop_spec (now : Int) : ∀ (c₂ : List Nat) (fuel : Nat)
    (l : LRU K V) (c₁ f : List Nat), Represents l (c₁ ++ c₂) f →
    c₂.length < fuel →
    ∃ f', Represents (purgeLoop now fuel l (headOr c₂ (-1))).1
        (c₁ ++ c₂.filter (purgeKeep l.nodePool now)) f' ∧
      (purgeLoop now fuel l (headOr c₂ (-1))).1.size =
        l.size - (purgeLoop now fuel l (headOr c₂ (-1))).2.1 ∧
      (purgeLoop now fuel l (headOr c₂ (-1))).2.1 =
        (c₂.length : Int) -
          ((c₂.filter (purgeKeep l.nodePool now)).length : Int) ∧
      (purgeLoop now fuel l (headOr c₂ (-1))).1.maxSize = l.maxSize ∧
      (purgeLoop now fuel l (headOr c₂ (-1))).1.defaultTTL = l.defaultTTL ∧
      (purgeLoop now fuel l (headOr c₂ (-1))).1.onEv = l.onEv ∧
      (purgeLoop now fuel l (headOr c₂ (-1))).1.poolCap = l.poolCap ∧
      (purgeLoop now fuel l (headOr c₂ (-1))).1.nodePool.length =
        l.nodePool.length ∧
      (∀ k, mLoad l.m k = none →
        mLoad (purgeLoop now fuel l (headOr c₂ (-1))).1.m k = none)
  | [], fuel, l, c₁, f, h, hfuel => by
    obtain ⟨n, rfl⟩ : ∃ n, fuel = n + 1 := ⟨fuel - 1, by omega⟩
    rw [headOr_nil, purgeLoop, if_pos (by decide : (-1 : Int) < 0)]
    rw [List.append_nil] at h
    refine ⟨f, by simpa using h, ?_, by simp, rfl, rfl, rfl, rfl, rfl, ?_⟩
    · show l.size = l.size - 0
      omega
    · intro k hk
      exact hk
  | b :: c₂', fuel, l, c₁, f, h, hfuel => by
    obtain ⟨n, rfl⟩ : ∃ n, fuel = n + 1 := ⟨fuel - 1, by omega⟩
    have hfuel' : c₂'.length < n := by
      simp only [List.length_cons] at hfuel
      omega
    have hblt : b < l.nodePool.length := h.chain_lt b (by simp)
    have hnext : (getNat l.nodePool b).next = headOr c₂' (-1) :=
      h.chain_next rfl
    have hb0 : ¬(((b : Nat) : Int) < 0) := not_lt.mpr (Int.natCast_nonneg b)
    have hb1 : ¬((l.nodePool.length : Int) ≤ ((b : Nat) : Int)) :=
      not_le.mpr (by exact_mod_cast hblt)
    have hbc₂' : b ∉ c₂' := by
      have hnd := (List.nodup_append.mp h.chain_nodup).2.1
      exact (List.nodup_cons.mp hnd).1
    rw [headOr_cons, purgeLoop, if_neg hb0, if_neg hb1]
    dsimp only
    rw [getN_coe, hnext]
    by_cases hx : 0 < (getNat l.nodePool b).expiration ∧
        (getNat l.nodePool b).expiration < now
    · rw [if_pos hx]
      dsimp only
      rw [mFirst_removeRelease]
      obtain ⟨rrep, rm, rsz, rms, rdt, roe, rpc, rlen, rdata⟩ :=
        removeRelease_rep h c₁ c₂' b rfl
      have hfc : c₂'.filter (purgeKeep (removeRelease l ((b : Nat) : Int)
          (mDelete l.m (getNat l.nodePool b).key)).nodePool now) =
          c₂'.filter (purgeKeep l.nodePool now) := by
        refine List.filter_congr ?_
        intro a ha
        have hab : a ≠ b := fun e => hbc₂' (e ▸ ha)
        unfold purgeKeep
        rw [(rdata a hab).2.2]
      obtain ⟨f'', ih, ihsz, ihcnt, ihms, ihdt, ihoe, ihpc, ihlen, ihm⟩ :=
        purgeLoop_spec now c₂' n (removeRelease l ((b : Nat) : Int)
          (mDelete l.m (getNat l.nodePool b).key)) c₁ (b :: f) rrep hfuel'
      rw [hfc] at ih ihcnt
      have hkf : ¬ purgeKeep l.nodePool now b = true := by
        simp [purgeKeep_false hx]
      refine ⟨f'', ?_, ?_, ?_, ?_, ?_, ?_, ?_, ?_, ?_⟩
      · rw [List.filter_cons_of_neg hkf]
        exact ih
      · rw [ihsz, rsz]
        omega
      · rw [ihcnt, List.filter_cons_of_neg hkf]
        simp only [List.length_cons]
        push_cast
        omega
      · rw [ihms, rms]
      · rw [ihdt, rdt]
      · rw [ihoe, roe]
      · rw [ihpc, rpc]
      · rw [ihlen, rlen]
      · intro k hk
        refine ihm k ?_
        rw [rm, mLoad_mDelete]
        split_ifs
        · rfl
        · exact hk
    · rw [if_neg hx]
      have h' : Represents l ((c₁ ++ [b]) ++ c₂') f := by
        rw [List.append_assoc]
        simpa using h
      obtain ⟨f'', ih, ihsz, ihcnt, ihms, ihdt, ihoe, ihpc, ihlen, ihm⟩ :=
        purgeLoop_spec now c₂' n l (c₁ ++ [b]) f h' hfuel'
      refine ⟨f'', ?_, ihsz, ?_, ihms, ihdt, ihoe, ihpc, ihlen, ihm⟩
      · rw [List.filter_cons_of_pos (purgeKeep_true hx)]
        have he : (c₁ ++ [b]) ++ c₂'.filter (purgeKeep l.nodePool now) =
            c₁ ++ b :: c₂'.filter (purgeKeep l.nodePool now) := by
          simp
        rw [he] at ih
        exact ih
      · rw [ihcnt, List.filter_cons_of_pos (purgeKeep_true hx)]
        simp only [List.length_cons]
        push_cast
        omega

/-- `PurgeExpired` preserves the invariant and the configuration, removes
exactly the expired chain entries (its count), and never adds index
entries. -/
theorem PurgeExpired_spec {l : LRU K V} {c f : List Nat}
    (h : Represents l c f) (now : Int) :
    ∃ f', Represents (PurgeExpired l now).1
        (c.filter (purgeKeep l.nodePool now)) f' ∧
      (PurgeExpired l now).1.size = l.size - (PurgeExpired l now).2.1 ∧
      (PurgeExpired l now).2.1 = (c.length : Int) -
        ((c.filter (purgeKeep l.nodePool now)).length : Int) ∧
      (PurgeExpired l now).1.maxSize = l.maxSize ∧
      (PurgeExpired l now).1.defaultTTL = l.defaultTTL ∧
      (PurgeExpired l now).1.onEv = l.onEv ∧
      (PurgeExpired l now).1.poolCap = l.poolCap ∧
      (PurgeExpired l now).1.nodePool.length = l.nodePool.length ∧
      (∀ k, mLoad l.m k = none → mLoad (PurgeExpired l now).1.m k = none) := by
  have hclen : c.length ≤ l.nodePool.length := by
    have hp := h.hperm.length_eq
    simp only [List.length_append, List.length_range] at hp
    omega
  have hfuel : c.length < l.nodePool.length + 1 := by omega
  have hc : Represents l ([] ++ c) f := by simpa using h
  have hhd : l.head = headOr c (-1) := h.hhead
  obtain ⟨f', hrep, hsz, hcnt, hms, hdt, hoe, hpc, hlen, hm⟩ :=
    purgeLoop_spec now c (l.nodePool.length + 1) l [] f hc hfuel
  unfold PurgeExpired
  rw [hhd]
  exact ⟨f', by simpa using hrep, hsz, hcnt, hms, hdt, hoe, hpc, hlen, hm⟩

/-- `PurgeExpired` preserves the invariant. -/
theorem PurgeExpired_preserves {l : LRU K V} (h : Inv l) (now : Int) :
    Preserves l (PurgeExpired l now).1 := by
  obtain ⟨⟨c, f, hrep⟩, hms, hsz⟩ := h
  obtain ⟨f', hrep2, hsz2, hcnt, hms2, hdt2, hoe2, hpc2, hlen2, hm2⟩ :=
    PurgeExpired_spec hrep now
  refine ⟨⟨⟨_, _, hrep2⟩, by rw [hms2]; exact hms, ?_⟩, hms2, hdt2, hoe2,
    hpc2, ?_⟩
  · rw [hsz2, hcnt, hms2]
    have hfle : (c.filter (purgeKeep l.nodePool now)).length ≤ c.length :=
      List.length_filter_le _ _
    omega
  · rw [hlen2]
    exact le_max_left _ _

/-- Every reachable state satisfies the invariant. -/
theorem Reach_inv {l : LRU K V} (h : Reach l) : Inv l := by
  induction h with
  | base maxSize ttl onEv => exact NewLRUWithConfig_inv maxSize ttl onEv
  | step_set l key value now _ ih => exact (Set_preserves ih key value now).1
  | step_setWithTTL l key value ttl now _ ih =>
    exact (SetWithTTL_preserves ih key value ttl now).1
  | step_get l key now _ ih => exact (Get_preserves ih key now).1
  | step_getOrSet l key value ttl now _ ih =>
    exact (GetOrSet_preserves ih key value ttl now).1
  | step_getOrCompute l key fnVal fnTtl now _ ih =>
    exact (GetOrCompute_preserves ih key fnVal fnTtl now).1
  | step_delete l key _ ih => exact (Delete_preserves ih key).1
  | step_clear l _ ih => exact (Clear_preserves ih).1
  | step_resize l ms _ ih => exact Resize_inv ih ms
  | step_purge l now _ ih => exact (PurgeExpired_preserves ih now).1

theorem NewLRUWithConfig_wfcap (maxSize ttl : Int) (onEv : Bool) :
    WFcap (NewLRUWithConfig maxSize ttl onEv : LRU K V) := by
  refine ⟨NewLRUWithConfig_inv maxSize ttl onEv, ?_, ?_⟩
  · show (if maxSize ≤ 0 then 1000 else maxSize) ≤
      (((if maxSize ≤ 0 then (1000 : Int) else maxSize)).toNat : Int)
    split_ifs <;> omega
  · show (0 : Nat) ≤ _
    omega

theorem WFcap_step {l s : LRU K V} (hw : WFcap l) (hp : Preserves l s) :
    WFcap s := by
  obtain ⟨hi, hms, hlen⟩ := hw
  obtain ⟨hi2, hms2, _, _, hpc2, hlen2⟩ := hp
  refine ⟨hi2, ?_, ?_⟩
  · rw [hms2, hpc2]
    exact hms
  · rw [hpc2]
    omega

theorem applyOp_preserves {l : LRU K V} (h : Inv l) (op : SetOp K V) :
    Preserves l (applyOp l op) := by
  cases op with
  | setOp k v now => exact Set_preserves h k v now
  | setWithTTLOp k v ttl now => exact SetWithTTL_preserves h k v ttl now
  | getOrSetOp k v ttl now => exact GetOrSet_preserves h k v ttl now

theorem applySeq_wfcap : ∀ (ops : List (SetOp K V)) (l : LRU K V),
    WFcap l → WFcap (applySeq l ops)
  | [], _, h => h
  | op :: rest, l, h =>
    applySeq_wfcap rest _ (WFcap_step h (applyOp_preserves h.1 op))

/-- Under the capacity accounting, inserting a fresh key cannot hit the
silent-failure branch. -/
theorem setInsert_present {l : LRU K V} {c f : List Nat}
    (h : Represents l c f) (hms : 1 ≤ l.maxSize) (hsz : l.size ≤ l.maxSize)
    (hmscap : l.maxSize ≤ (l.poolCap : Int))
    (hcap : l.nodePool.length ≤ l.poolCap)
    (key : K) (value : V) (exp : Int) (hnew : mLoad l.m key = none) :
    ∃ (w : Nat) (cK fK : List Nat) (mPre : List (K × Int)),
      InsertOutcome l (setInsert l key value exp).1 mPre cK fK w key value
        exp ∧ (cK.length : Int) + 1 ≤ l.maxSize := by
  rcases setInsert_cases h hms hsz key value exp hnew with hok |
    ⟨_, hfl, hcap2, hlt⟩
  · exact hok
  · exfalso
    have hf : f = [] := headOr_neg_one (by rw [← h.hfleft]; exact hfl)
    have hp := h.hperm.length_eq
    simp only [List.length_append, List.length_range, hf,
      List.length_nil] at hp
    have hs := h.hsize
    omega

/-- After any `SetWithTTL` on a capacity-sound state the key is present, at
the head of the chain, with the stored value and expiration. -/
theorem SetWithTTL_present {l : LRU K V} (hw : WFcap l) (key : K) (value : V)
    (ttl now : Int) :
    ∃ (w : Nat) (cR fR : List Nat),
      Represents (SetWithTTL l key value ttl now).1 (w :: cR) fR ∧
      mLoad (SetWithTTL l key value ttl now).1.m key = some ((w : Nat) : Int) ∧
      (getNat (SetWithTTL l key value ttl now).1.nodePool w).key = key ∧
      (getNat (SetWithTTL l key value ttl now).1.nodePool w).value = value ∧
      (getNat (SetWithTTL l key value ttl now).1.nodePool w).expiration =
        (if 0 < ttl then now + ttl else 0) := by
  obtain ⟨⟨⟨c, f, hrep⟩, hms, hsz⟩, hmscap, hcap⟩ := hw
  cases hml : mLoad l.m key with
  | some x =>
    obtain ⟨j, c₁, c₂, hjx, hc, mrep, mm, msz, mms, mdt, moe, mpc, mlen, mk,
      mv, me, mdata, mev⟩ := SetWithTTL_update_rep hrep key value ttl now hml
    refine ⟨j, c₁ ++ c₂, f, mrep, ?_, mk, mv, me⟩
    rw [mm, hml, ← hjx]
  | none =>
    rw [SetWithTTL_none_eq key value ttl now hml]
    obtain ⟨w, cK, fK, mPre, ho, hbound⟩ :=
      setInsert_present hrep hms hsz hmscap hcap key value _ hml
    obtain ⟨orep, om, osz, oms, odt, ooe, opc, olen, okk, ovv, oee, odat⟩ :=
      ho
    refine ⟨w, cK, fK, orep, ?_, okk, ovv, oee⟩
    rw [om, mLoad_mStore_self]

theorem iterLive_true {pool : List (lruNode K V)} {now : Int} {j : Nat}
    (hx : (getNat pool j).expiration = 0 ∨
      now < (getNat pool j).expiration) : iterLive pool now j = true := by
  unfold iterLive
  simp only [decide_eq_true_eq]
  exact hx

theorem iterLive_false {pool : List (lruNode K V)} {now : Int} {j : Nat}
    (hx : ¬((getNat pool j).expiration = 0 ∨
      now < (getNat pool j).expiration)) :
    ¬ iterLive pool now j = true := by
  unfold iterLive
  simp only [decide_eq_true_eq]
  exact hx

theorem keysWalk_spec (now : Int) : ∀ (c₂ : List Nat) (fuel : Nat)
    (l : LRU K V) (c₁ f : List Nat), Represents l (c₁ ++ c₂) f →
    c₂.length < fuel →
    keysWalk l now fuel (headOr c₂ (-1)) =
      (c₂.filter (iterLive l.nodePool now)).map
        (fun j => (getNat l.nodePool j).key)
  | [], fuel, l, c₁, f, h, hfuel => by
    obtain ⟨n, rfl⟩ : ∃ n, fuel = n + 1 := ⟨fuel - 1, by omega⟩
    rw [headOr_nil, keysWalk, if_pos (by decide : (-1 : Int) < 0)]
    simp
  | b :: c₂', fuel, l, c₁, f, h, hfuel => by
    obtain ⟨n, rfl⟩ : ∃ n, fuel = n + 1 := ⟨fuel - 1, by omega⟩
    have hfuel' : c₂'.length < n := by
      simp only [List.length_cons] at hfuel
      omega
    have hblt : b < l.nodePool.length := h.chain_lt b (by simp)
    have hnext : (getNat l.nodePool b).next = headOr c₂' (-1) :=
      h.chain_next rfl
    have hb0 : ¬(((b : Nat) : Int) < 0) := not_lt.mpr (Int.natCast_nonneg b)
    have hb1 : ¬((l.nodePool.length : Int) ≤ ((b : Nat) : Int)) :=
      not_le.mpr (by exact_mod_cast hblt)
    have h' : Represents l ((c₁ ++ [b]) ++ c₂') f := by
      rw [List.append_assoc]
      simpa using h
    rw [headOr_cons, keysWalk, if_neg hb0, if_neg hb1]
    dsimp only
    rw [getN_coe, hnext, keysWalk_spec now c₂' n l (c₁ ++ [b]) f h' hfuel']
    by_cases hx : (getNat l.nodePool b).expiration = 0 ∨
        now < (getNat l.nodePool b).expiration
    · rw [if_pos hx, List.filter_cons_of_pos (iterLive_true hx),
        List.map_cons]
    · rw [if_neg hx, List.filter_cons_of_neg (iterLive_false hx)]

theorem valuesWalk_spec (now : Int) : ∀ (c₂ : List Nat) (fuel : Nat)
    (l : LRU K V) (c₁ f : List Nat), Represents l (c₁ ++ c₂) f →
    c₂.length < fuel →
    valuesWalk l now fuel (headOr c₂ (-1)) =
      (c₂.filter (iterLive l.nodePool now)).map
        (fun j => (getNat l.nodePool j).value)
  | [], fuel, l, c₁, f, h, hfuel => by
    obtain ⟨n, rfl⟩ : ∃ n, fuel = n + 1 := ⟨fuel - 1, by omega⟩
    rw [headOr_nil, valuesWalk, if_pos (by decide : (-1 : Int) < 0)]
    simp
  | b :: c₂', fuel, l, c₁, f, h, hfuel => by
    obtain ⟨n, rfl⟩ : ∃ n, fuel = n + 1 := ⟨fuel - 1, by omega⟩
    have hfuel' : c₂'.length < n := by
      simp only [List.length_cons] at hfuel
      omega
    have hblt : b < l.nodePool.length := h.chain_lt b (by simp)
    have hnext : (getNat l.nodePool b).next = headOr c₂' (-1) :=
      h.chain_next rfl
    have hb0 : ¬(((b : Nat) : Int) < 0) := not_lt.mpr (Int.natCast_nonneg b)
    have hb1 : ¬((l.nodePool.length : Int) ≤ ((b : Nat) : Int)) :=
      not_le.mpr (by exact_mod_cast hblt)
    have h' : Represents l ((c₁ ++ [b]) ++ c₂') f := by
      rw [List.append_assoc]
      simpa using h
    rw [headOr_cons, valuesWalk, if_neg hb0, if_neg hb1]
    dsimp only
    rw [getN_coe, hnext, valuesWalk_spec now c₂' n l (c₁ ++ [b]) f h' hfuel']
    by_cases hx : (getNat l.nodePool b).expiration = 0 ∨
        now < (getNat l.nodePool b).expiration
    · rw [if_pos hx, List.filter_cons_of_pos (iterLive_true hx),
        List.map_cons]
    · rw [if_neg hx, List.filter_cons_of_neg (iterLive_false hx)]

theorem forEachWalk_spec (now : Int) (fn : K → V → Bool)
    (hfn : ∀ k v, fn k v = true) : ∀ (c₂ : List Nat) (fuel : Nat)
    (l : LRU K V) (c₁ f : List Nat), Represents l (c₁ ++ c₂) f →
    c₂.length < fuel →
    forEachWalk l fn now fuel (headOr c₂ (-1)) =
      (c₂.filter (iterLive l.nodePool now)).map
        (fun j => ((getNat l.nodePool j).key, (getNat l.nodePool j).value))
  | [], fuel, l, c₁, f, h, hfuel => by
    obtain ⟨n, rfl⟩ : ∃ n, fuel = n + 1 := ⟨fuel - 1, by omega⟩
    rw [headOr_nil, forEachWalk, if_pos (by decide : (-1 : Int) < 0)]
    simp
  | b :: c₂', fuel, l, c₁, f, h, hfuel => by
    obtain ⟨n, rfl⟩ : ∃ n, fuel = n + 1 := ⟨fuel - 1, by omega⟩
    have hfuel' : c₂'.length < n := by
      simp only [List.length_cons] at hfuel
      omega
    have hblt : b < l.nodePool.length := h.chain_lt b (by simp)
    have hnext : (getNat l.nodePool b).next = headOr c₂' (-1) :=
      h.chain_next rfl
    have hb0 : ¬(((b : Nat) : Int) < 0) := not_lt.mpr (Int.natCast_nonneg b)
    have hb1 : ¬((l.nodePool.length : Int) ≤ ((b : Nat) : Int)) :=
      not_le.mpr (by exact_mod_cast hblt)
    have h' : Represents l ((c₁ ++ [b]) ++ c₂') f := by
      rw [List.append_assoc]
      simpa using h
    rw [headOr_cons, forEachWalk, if_neg hb0, if_neg hb1]
    dsimp only
    rw [getN_coe, hnext,
      forEachWalk_spec now fn hfn c₂' n l (c₁ ++ [b]) f h' hfuel']
    by_cases hx : (getNat l.nodePool b).expiration = 0 ∨
        now < (getNat l.nodePool b).expiration
    · rw [if_pos hx, if_pos (hfn _ _), List.filter_cons_of_pos
        (iterLive_true hx), List.map_cons]
    · rw [if_neg hx, List.filter_cons_of_neg (iterLive_false hx)]

/-- `Keys` lists the keys of the unexpired entries in recency order. -/
theorem Keys_spec {l : LRU K V} {c f : List Nat} (h : Represents l c f)
    (now : Int) :
    Keys l now = (c.filter (iterLive l.nodePool now)).map
      (fun j => (getNat l.nodePool j).key) := by
  have hclen : c.length ≤ l.nodePool.length := by
    have hp := h.hperm.length_eq
    simp only [List.length_append, List.length_range] at hp
    omega
  have hc : Represents l ([] ++ c) f := by simpa using h
  unfold Keys
  rw [h.hhead]
  exact keysWalk_spec now c (l.nodePool.length + 1) l [] f hc (by omega)

/-- `Values` lists the values of the unexpired entries in recency order. -/
theorem Values_spec {l : LRU K V} {c f : List Nat} (h : Represents l c f)
    (now : Int) :
    Values l now = (c.filter (iterLive l.nodePool now)).map
      (fun j => (getNat l.nodePool j).value) := by
  have hclen : c.length ≤ l.nodePool.length := by
    have hp := h.hperm.length_eq
    simp only [List.length_append, List.length_range] at hp
    omega
  have hc : Represents l ([] ++ c) f := by simpa using h
  unfold Values
  rw [h.hhead]
  exact valuesWalk_spec now c (l.nodePool.length + 1) l [] f hc (by omega)

/-- `ForEach` with a non-stopping callback visits exactly the unexpired
entries in recency order. -/
theorem ForEach_spec {l : LRU K V} {c f : List Nat} (h : Represents l c f)
    (fn : K → V → Bool) (hfn : ∀ k v, fn k v = true) (now : Int) :
    ForEach l fn now = (c.filter (iterLive l.nodePool now)).map
      (fun j => ((getNat l.nodePool j).key, (getNat l.nodePool j).value)) := by
  have hclen : c.length ≤ l.nodePool.length := by
    have hp := h.hperm.length_eq
    simp only [List.length_append, List.length_range] at hp
    omega
  have hc : Represents l ([] ++ c) f := by simpa using h
  unfold ForEach
  rw [h.hhead]
  exact forEachWalk_spec now fn hfn c (l.nodePool.length + 1) l [] f hc
    (by omega)

theorem NewLRU_rep {ms : Nat} (hms : 1 ≤ ms) :
    Represents (NewLRU (ms : Int) : LRU K V) [] [] ∧
    (NewLRU (ms : Int) : LRU K V).maxSize = (ms : Int) ∧
    (NewLRU (ms : Int) : LRU K V).defaultTTL = 0 ∧
    (NewLRU (ms : Int) : LRU K V).poolCap = ms ∧
    (NewLRU (ms : Int) : LRU K V).size = 0 ∧
    (NewLRU (ms : Int) : LRU K V).nodePool.length = 0 := by
  have hneg : ¬((ms : Int) ≤ 0) := by omega
  unfold NewLRU NewLRUWithConfig
  dsimp only
  rw [if_neg hneg]
  exact ⟨⟨by simp, trivial, rfl, rfl, trivial, rfl, by simp, by simp,
    by simp⟩, rfl, rfl, by simp, rfl, by simp⟩

/-- After `i ≤ maxSize` distinct inserts into a fresh cache the chain is
`[i-1, …, 0]` (most-recent first), slot `j` carries key `ks j` with no
expiration, and no eviction has happened. -/
theorem setSeq_fill {ms : Nat} (hms : 1 ≤ ms) (ks : Nat → K) (vs : Nat → V)
    (hdist : ∀ i j : Nat, i ≠ j → ks i ≠ ks j) (now : Int) :
    ∀ i : Nat, i ≤ ms →
    Represents (setSeq ks vs now (NewLRU (ms : Int)) i)
      ((List.range i).reverse) [] ∧
    (∀ j : Nat, j < i →
      mLoad (setSeq ks vs now (NewLRU (ms : Int)) i).m (ks j) =
        some ((j : Nat) : Int) ∧
      (getNat (setSeq ks vs now (NewLRU (ms : Int)) i).nodePool j).key =
        ks j ∧
      (getNat (setSeq ks vs now (NewLRU (ms : Int)) i).nodePool
        j).expiration = 0) ∧
    (setSeq ks vs now (NewLRU (ms : Int)) i).size = (i : Int) ∧
    (setSeq ks vs now (NewLRU (ms : Int)) i).maxSize = (ms : Int) ∧
    (setSeq ks vs now (NewLRU (ms : Int)) i).defaultTTL = 0 ∧
    (setSeq ks vs now (NewLRU (ms : Int)) i).nodePool.length = i ∧
    (setSeq ks vs now (NewLRU (ms : Int)) i).poolCap = ms := by
  intro i
  induction i with
  | zero =>
    intro _
    obtain ⟨hrep, hN1, hN2, hN3, hN4, hN5⟩ := @NewLRU_rep K V _ _ _ ms hms
    exact ⟨by simpa using hrep, fun j hj => absurd hj (Nat.not_lt_zero j),
      by simpa using hN4, hN1, hN2, hN5, hN3⟩
  | succ i ih =>
    intro hle
    have hil : i < ms := by omega
    obtain ⟨ihrep, ihm, ihsz, ihms, ihdt, ihlen, ihpc⟩ := ih (by omega)
    set li := setSeq ks vs now (NewLRU (ms : Int) : LRU K V) i with hli
    have hnew : mLoad li.m (ks i) = none := by
      refine ihrep.mLoad_none ?_
      intro j hj
      have hji : j < i := by simpa using hj
      rw [(ihm j hji).2.1]
      exact hdist j i (by omega)
    have hstep : setSeq ks vs now (NewLRU (ms : Int)) (i + 1) =
        (setInsert li (ks i) (vs i) 0).1 := by
      show (Set li (ks i) (vs i) now).1 = _
      unfold Set
      rw [SetWithTTL_none_eq (ks i) (vs i) li.defaultTTL now hnew, ihdt]
      simp
    have hlt : ¬ li.maxSize ≤ li.size := by
      rw [ihms, ihsz]
      omega
    have hcap : li.nodePool.length < li.poolCap := by
      rw [ihlen, ihpc]
      omega
    obtain ⟨ho, hev⟩ := setInsert_grow ihrep hlt hcap (ks i) (vs i) 0 hnew
    obtain ⟨orep, om, osz, oms, odt, ooe, opc, olen, okk, ovv, oee, odat⟩ :=
      ho
    rw [ihlen] at orep om okk ovv oee odat
    rw [hstep]
    refine ⟨?_, ?_, ?_, ?_, ?_, ?_, ?_⟩
    · have hr : (List.range (i + 1)).reverse = i :: (List.range i).reverse :=
        by
        rw [List.range_succ, List.reverse_append]
        rfl
      rw [hr]
      exact orep
    · intro j hj
      by_cases hji : j = i
      · subst hji
        refine ⟨?_, okk, oee⟩
        rw [om, mLoad_mStore_self]
      · have hjlt : j < i := by omega
        have hsame := odat j hji
        refine ⟨?_, ?_, ?_⟩
        · rw [om, mLoad_mStore, if_neg (hdist i j (fun e => hji e.symm))]
          exact (ihm j hjlt).1
        · rw [hsame.1]
          exact (ihm j hjlt).2.1
        · rw [hsame.2.2]
          exact (ihm j hjlt).2.2
    · rw [osz]
      simp only [List.length_reverse, List.length_range]
      push_cast
      ring
    · rw [oms, ihms]
    · rw [odt, ihdt]
    · have hp := orep.hperm.length_eq
      simp only [List.length_append, List.length_cons, List.length_reverse,
        List.length_range, List.length_nil] at hp
      omega
    · rw [opc, ihpc]

/-! ### The claims -/

/-- Claim C1: for every sequence of `Set`/`SetWithTTL`/`GetOrSet` calls
starting from a freshly constructed cache, after each call the live-entry
count `Len` is at most the cache's `maxSize` (every prefix of a sequence is
itself a sequence, so this bounds the count after each call). -/
theorem C1_capacity_invariant (maxSize ttl : Int) (onEv : Bool)
    (ops : List (SetOp K V)) :
    Len (applySeq (NewLRUWithConfig maxSize ttl onEv) ops) ≤
      (applySeq (NewLRUWithConfig maxSize ttl onEv) ops).maxSize :=
  (applySeq_wfcap ops (NewLRUWithConfig maxSize ttl onEv)
    (NewLRUWithConfig_wfcap maxSize ttl onEv)).1.2.2

/-- Claim C2: after a successful `Get`, the key's slot is the head of the
recency chain (most recently used, so it is evicted last among keys untouched
since); concretely with `maxSize = 2`, `Set "x" 1; Set "y" 2; Get "x";
Set "z" 3` evicts `"y"` and keeps `"x"` and `"z"`. -/
theorem C2_recency (l : LRU K V) (hl : Reach l) (key : K) (now : Int)
    (hhit : (Get l key now).2.2 = true) :
    (∃ (j : Nat) (cR fR : List Nat),
      Represents (Get l key now).1 (j :: cR) fR ∧
      (getNat l.nodePool j).key = key ∧
      (Get l key now).1.head = ((j : Nat) : Int)) ∧
    (Has (Set (Get (Set (Set (NewLRU 2 : LRU String Int) "x" 1 0).1 "y" 2
        0).1 "x" 0).1 "z" 3 0).1 "y" 0 = false ∧
     Has (Set (Get (Set (Set (NewLRU 2 : LRU String Int) "x" 1 0).1 "y" 2
        0).1 "x" 0).1 "z" 3 0).1 "x" 0 = true ∧
     Has (Set (Get (Set (Set (NewLRU 2 : LRU String Int) "x" 1 0).1 "y" 2
        0).1 "x" 0).1 "z" 3 0).1 "z" 0 = true) := by
  refine ⟨?_, by decide, by decide, by decide⟩
  obtain ⟨⟨c, f, hrep⟩, hms, hsz⟩ := Reach_inv hl
  cases hml : mLoad l.m key with
  | none =>
    rw [Get_none_eq key now hml] at hhit
    simp at hhit
  | some x =>
    by_cases hexp : 0 < (getNat l.nodePool x.toNat).expiration ∧
        (getNat l.nodePool x.toNat).expiration < now
    · obtain ⟨j, c₁, c₂, hjx, hc, grep, gm, gsz, gms, gdt, goe, gpc, glen,
        gdata, gres⟩ := Get_expired_rep hrep key now hml hexp
      rw [gres] at hhit
      simp at hhit
    · obtain ⟨j, c₁, c₂, hjx, hc, grep, gm, gsz, gfl, gms, gdt, goe, gpc,
        glen, gdata, gres⟩ := Get_hit_rep hrep key now hml hexp
      obtain ⟨j', hj', hj'x, hj'k⟩ := hrep.mLoad_some_elim hml
      have hjj : j' = j := Nat.cast_injective (hj'x.trans hjx.symm)
      subst hjj
      refine ⟨j', c₁ ++ c₂, f, grep, hj'k, ?_⟩
      rw [grep.hhead, headOr_cons]

/-- Instance of claim C2 at a concrete reachable state and key. -/
theorem C2_recency_witness :
    (∃ (j : Nat) (cR fR : List Nat),
      Represents (Get (Set (NewLRU 2 : LRU String Int) "x" 1 0).1 "x" 0).1
        (j :: cR) fR ∧
      (getNat (Set (NewLRU 2 : LRU String Int) "x" 1 0).1.nodePool j).key =
        "x" ∧
      (Get (Set (NewLRU 2 : LRU String Int) "x" 1 0).1 "x" 0).1.head =
        ((j : Nat) : Int)) ∧
    (Has (Set (Get (Set (Set (NewLRU 2 : LRU String Int) "x" 1 0).1 "y" 2
        0).1 "x" 0).1 "z" 3 0).1 "y" 0 = false ∧
     Has (Set (Get (Set (Set (NewLRU 2 : LRU String Int) "x" 1 0).1 "y" 2
        0).1 "x" 0).1 "z" 3 0).1 "x" 0 = true ∧
     Has (Set (Get (Set (Set (NewLRU 2 : LRU String Int) "x" 1 0).1 "y" 2
        0).1 "x" 0).1 "z" 3 0).1 "z" 0 = true) :=
  C2_recency (Set (NewLRU 2 : LRU String Int) "x" 1 0).1
    (Reach.step_set (NewLRU 2) "x" 1 0 (Reach.base 2 0 false)) "x" 0
    (by decide)

/-- Claim C4: with an eviction callback configured and `maxSize = 1`,
`Set "a" 1; Set "b" 2` fires the callback exactly once, but with the zeroed
pair `("", 0)` instead of the claimed `("a", 1)`: `evictBack` reads the
evicted node's key and value through the slot pointer *after* `releaseNode`
has zeroed the slot. -/
theorem C4_eviction_callback_bug :
    (Set (NewLRUWithConfig 1 0 true : LRU String Int) "a" 1 0).2 = [] ∧
    (Set (Set (NewLRUWithConfig 1 0 true : LRU String Int) "a" 1 0).1
      "b" 2 0).2 = [("", 0)] ∧
    [(("" : String), (0 : Int))] ≠ [("a", 1)] :=
  ⟨by decide, by decide, by decide⟩

/-- Claim C6 (amended): `Peek` returns exactly the `(value, found)` pair that
`Get` would return, but performs no state change whatsoever — in particular
no reordering and, contrary to the spec, *no* removal of stale entries
(`Peek`'s expired branch returns not-found and leaves the entry in place;
its Lean model returns only the result pair because the source mutates
nothing). -/
theorem C6_peek_is_pure_get (l : LRU K V) (key : K) (now : Int) :
    Peek l key now = (Get l key now).2 :=
  Peek_eq_Get l key now

/-- Counterexample to claim C6 as stated: a stale entry survives a `Peek`
that reported it missing — the index still holds it and `Len` is unchanged,
whereas the same `Get` removes it. -/
theorem C6_peek_no_cleanup_counterexample :
    Peek (SetWithTTL (NewLRU 2 : LRU String Int) "a" 1 5 0).1 "a" 10 =
      ((0 : Int), false) ∧
    mLoad (SetWithTTL (NewLRU 2 : LRU String Int) "a" 1 5 0).1.m "a" =
      some 0 ∧
    Len (SetWithTTL (NewLRU 2 : LRU String Int) "a" 1 5 0).1 = 1 ∧
    Len (Get (SetWithTTL (NewLRU 2 : LRU String Int) "a" 1 5 0).1 "a"
      10).1 = 0 :=
  ⟨by decide, by decide, by decide, by decide⟩

/-- Claim C7 (amended): as long as the cache has never been resized above
its construction capacity — here: any state produced by the insertion family
alone — inserting a fresh key always succeeds (the free list or the backing
array always yields a slot), so the key is present afterwards.  (`Resize`
above the initial capacity breaks this: see the counterexample.) -/
theorem C7_insertion_succeeds (maxSize ttl0 : Int) (onEv : Bool)
    (ops : List (SetOp K V)) (key : K) (value : V) (ttl now : Int)
    (hnew : mLoad (applySeq (NewLRUWithConfig maxSize ttl0 onEv) ops).m
      key = none) :
    Has (SetWithTTL (applySeq (NewLRUWithConfig maxSize ttl0 onEv) ops)
      key value ttl now).1 key now = true := by
  have hw := applySeq_wfcap ops (NewLRUWithConfig maxSize ttl0 onEv)
    (NewLRUWithConfig_wfcap maxSize ttl0 onEv)
  obtain ⟨w, cR, fR, srep, sml, skey, sval, sexp⟩ :=
    SetWithTTL_present hw key value ttl now
  have htn : (((w : Nat) : Int)).toNat = w := by simp
  refine Has_true srep key now sml ?_
  rw [htn, sexp]
  rintro ⟨h1, h2⟩
  by_cases httl : 0 < ttl
  · rw [if_pos httl] at h2
    omega
  · rw [if_neg httl] at h1
    omega

/-- Instance of claim C7 at a concrete state and key. -/
theorem C7_insertion_succeeds_witness :
    mLoad (applySeq (NewLRUWithConfig 1 0 false : LRU String Int) []).m
      "a" = none ∧
    Has (SetWithTTL (applySeq (NewLRUWithConfig 1 0 false : LRU String Int)
      []) "a" 1 0 0).1 "a" 0 = true :=
  ⟨by decide, C7_insertion_succeeds 1 0 false [] "a" 1 0 0 (by decide)⟩

/-- Counterexample to claim C7 as stated: after `Resize` above the initial
capacity, the free list is empty and the pool is at its backing capacity, so
`acquireNode` fails and `Set` of a fresh key silently inserts nothing — no
error propagates, no callback fires, and the key is simply absent. -/
theorem C7_resize_silent_drop_counterexample :
    mLoad (Resize (Set (NewLRU 1 : LRU String Int) "a" 1 0).1 2).1.m "b" =
      none ∧
    (Set (Resize (Set (NewLRU 1 : LRU String Int) "a" 1 0).1 2).1 "b" 2
      0).2 = [] ∧
    Has (Set (Resize (Set (NewLRU 1 : LRU String Int) "a" 1 0).1 2).1 "b" 2
      0).1 "b" 0 = false ∧
    Len (Set (Resize (Set (NewLRU 1 : LRU String Int) "a" 1 0).1 2).1 "b" 2
      0).1 = 1 :=
  ⟨by decide, by decide, by decide, by decide⟩

/-- Claim C8: in every reachable state each allocated slot is live (on the
recency chain, in exactly one position) or free (on the free list), never
both; the chain slots are in bijection with the keys of the index (lookup is
total on chain keys, every lookup hit lands on a chain slot, distinct slots
hold distinct keys); and the number of live slots equals `size`. -/
theorem C8_slot_invariant (l : LRU K V) (hl : Reach l) :
    ∃ c f : List Nat, Represents l c f ∧
      (∀ s : Nat, s < l.nodePool.length →
        ((s ∈ c ∧ s ∉ f) ∨ (s ∈ f ∧ s ∉ c))) ∧
      (∀ j ∈ c, c.count j = 1) ∧
      (∀ j ∈ c, mLoad l.m (getNat l.nodePool j).key =
        some ((j : Nat) : Int)) ∧
      (∀ (k : K) (x : Int), mLoad l.m k = some x →
        ∃ j ∈ c, ((j : Nat) : Int) = x ∧ (getNat l.nodePool j).key = k) ∧
      (∀ i ∈ c, ∀ j ∈ c, (getNat l.nodePool i).key =
        (getNat l.nodePool j).key → i = j) ∧
      l.size = (c.length : Int) := by
  obtain ⟨⟨c, f, hrep⟩, hms, hsz⟩ := Reach_inv hl
  refine ⟨c, f, hrep, ?_, ?_, hrep.hmap2, ?_, ?_, hrep.hsize⟩
  · intro s hs
    have hsm : s ∈ c ++ f :=
      hrep.hperm.mem_iff.mpr (List.mem_range.mpr hs)
    rcases List.mem_append.mp hsm with hc | hf
    · exact Or.inl ⟨hc, hrep.disj s hc⟩
    · refine Or.inr ⟨hf, fun hc => hrep.disj s hc hf⟩
  · intro j hj
    exact List.count_eq_one_of_mem hrep.chain_nodup hj
  · intro k x hkx
    exact hrep.hmap1 (k, x) (mLoad_mem hkx)
  · intro i hi j hj hk
    exact hrep.key_inj hi hj hk

/-- Instance of claim C8 at a concrete reachable state. -/
theorem C8_slot_invariant_witness :
    ∃ c f : List Nat,
      Represents (NewLRUWithConfig 2 0 false : LRU String Int) c f ∧
      (∀ s : Nat,
        s < (NewLRUWithConfig 2 0 false : LRU String Int).nodePool.length →
        ((s ∈ c ∧ s ∉ f) ∨ (s ∈ f ∧ s ∉ c))) ∧
      (∀ j ∈ c, c.count j = 1) ∧
      (∀ j ∈ c, mLoad (NewLRUWithConfig 2 0 false : LRU String Int).m
        (getNat (NewLRUWithConfig 2 0 false :
          LRU String Int).nodePool j).key = some ((j : Nat) : Int)) ∧
      (∀ (k : String) (x : Int),
        mLoad (NewLRUWithConfig 2 0 false : LRU String Int).m k = some x →
        ∃ j ∈ c, ((j : Nat) : Int) = x ∧
          (getNat (NewLRUWithConfig 2 0 false :
            LRU String Int).nodePool j).key = k) ∧
      (∀ i ∈ c, ∀ j ∈ c,
        (getNat (NewLRUWithConfig 2 0 false : LRU String Int).nodePool
          i).key =
        (getNat (NewLRUWithConfig 2 0 false : LRU String Int).nodePool
          j).key → i = j) ∧
      (NewLRUWithConfig 2 0 false : LRU String Int).size =
        (c.length : Int) :=
  C8_slot_invariant (NewLRUWithConfig 2 0 false) (Reach.base 2 0 false)

/-- Claim C9: `Keys`, `Values` and a non-stopping `ForEach` enumerate
exactly the unexpired entries in recency order (most to least recent —
the chain order), skipping expired entries; none of the three returns a
modified state, mirroring the read-only source. -/
theorem C9_iteration (l : LRU K V) (hl : Reach l) (now : Int) :
    ∃ c f : List Nat, Represents l c f ∧
      Keys l now = (c.filter (iterLive l.nodePool now)).map
        (fun j => (getNat l.nodePool j).key) ∧
      Values l now = (c.filter (iterLive l.nodePool now)).map
        (fun j => (getNat l.nodePool j).value) ∧
      (∀ fn : K → V → Bool, (∀ k v, fn k v = true) →
        ForEach l fn now = (c.filter (iterLive l.nodePool now)).map
          (fun j => ((getNat l.nodePool j).key,
            (getNat l.nodePool j).value))) := by
  obtain ⟨⟨c, f, hrep⟩, hms, hsz⟩ := Reach_inv hl
  exact ⟨c, f, hrep, Keys_spec hrep now, Values_spec hrep now,
    fun fn hfn => ForEach_spec hrep fn hfn now⟩

/-- Instance of claim C9 at a concrete reachable state. -/
theorem C9_iteration_witness :
    ∃ c f : List Nat,
      Represents (NewLRUWithConfig 2 0 false : LRU String Int) c f ∧
      Keys (NewLRUWithConfig 2 0 false : LRU String Int) 0 =
        (c.filter (iterLive (NewLRUWithConfig 2 0 false :
          LRU String Int).nodePool 0)).map
          (fun j => (getNat (NewLRUWithConfig 2 0 false :
            LRU String Int).nodePool j).key) ∧
      Values (NewLRUWithConfig 2 0 false : LRU String Int) 0 =
        (c.filter (iterLive (NewLRUWithConfig 2 0 false :
          LRU String Int).nodePool 0)).map
          (fun j => (getNat (NewLRUWithConfig 2 0 false :
            LRU String Int).nodePool j).value) ∧
      (∀ fn : String → Int → Bool, (∀ k v, fn k v = true) →
        ForEach (NewLRUWithConfig 2 0 false : LRU String Int) fn 0 =
          (c.filter (iterLive (NewLRUWithConfig 2 0 false :
            LRU String Int).nodePool 0)).map
            (fun j => ((getNat (NewLRUWithConfig 2 0 false :
              LRU String Int).nodePool j).key,
              (getNat (NewLRUWithConfig 2 0 false :
                LRU String Int).nodePool j).value))) :=
  C9_iteration (NewLRUWithConfig 2 0 false) (Reach.base 2 0 false) 0

/-- Claim C10: `SetWithTTL` on a key whose entry has expired but has not yet
been cleaned up updates the node in place — same slot, new value and
expiration, moved to the chain head — with the index, the size (`Len`), all
other slots' data, and the event list unchanged: the expired entry keeps
occupying capacity. -/
theorem C10_set_expired_updates_in_place (l : LRU K V) (hl : Reach l)
    (key : K) (value : V) (ttl now : Int) (x : Int)
    (hml : mLoad l.m key = some x)
    (hexp1 : 0 < (getNat l.nodePool x.toNat).expiration)
    (hexp2 : (getNat l.nodePool x.toNat).expiration < now) :
    ∃ (j : Nat) (c₁ c₂ f : List Nat),
      ((j : Nat) : Int) = x ∧
      Represents l (c₁ ++ j :: c₂) f ∧
      Represents (SetWithTTL l key value ttl now).1 (j :: (c₁ ++ c₂)) f ∧
      (SetWithTTL l key value ttl now).1.m = l.m ∧
      Len (SetWithTTL l key value ttl now).1 = Len l ∧
      (SetWithTTL l key value ttl now).2 = [] ∧
      (getNat (SetWithTTL l key value ttl now).1.nodePool j).key = key ∧
      (getNat (SetWithTTL l key value ttl now).1.nodePool j).value =
        value ∧
      (getNat (SetWithTTL l key value ttl now).1.nodePool j).expiration =
        (if 0 < ttl then now + ttl else 0) ∧
      (∀ a, a ≠ j → sameData
        (getNat (SetWithTTL l key value ttl now).1.nodePool a)
        (getNat l.nodePool a)) := by
  obtain ⟨⟨c, f, hrep⟩, hms, hsz⟩ := Reach_inv hl
  obtain ⟨j, c₁, c₂, hjx, hc, mrep, mm, msz, mms, mdt, moe, mpc, mlen, mk,
    mv, me, mdata, mev⟩ := SetWithTTL_update_rep hrep key value ttl now hml
  exact ⟨j, c₁, c₂, f, hjx, hc ▸ hrep, mrep, mm, msz, mev, mk, mv, me,
    mdata⟩

/-- Instance of claim C10 at a concrete reachable state with an expired
entry. -/
theorem C10_set_expired_witness :
    ∃ (j : Nat) (c₁ c₂ f : List Nat),
      ((j : Nat) : Int) = 0 ∧
      Represents (SetWithTTL (NewLRU 2 : LRU String Int) "a" 1 5 0).1
        (c₁ ++ j :: c₂) f ∧
      Represents (SetWithTTL (SetWithTTL (NewLRU 2 : LRU String Int) "a" 1
        5 0).1 "a" 7 3 10).1 (j :: (c₁ ++ c₂)) f ∧
      (SetWithTTL (SetWithTTL (NewLRU 2 : LRU String Int) "a" 1 5 0).1 "a"
        7 3 10).1.m =
        (SetWithTTL (NewLRU 2 : LRU String Int) "a" 1 5 0).1.m ∧
      Len (SetWithTTL (SetWithTTL (NewLRU 2 : LRU String Int) "a" 1 5 0).1
        "a" 7 3 10).1 =
        Len (SetWithTTL (NewLRU 2 : LRU String Int) "a" 1 5 0).1 ∧
      (SetWithTTL (SetWithTTL (NewLRU 2 : LRU String Int) "a" 1 5 0).1 "a"
        7 3 10).2 = [] ∧
      (getNat (SetWithTTL (SetWithTTL (NewLRU 2 : LRU String Int) "a" 1 5
        0).1 "a" 7 3 10).1.nodePool j).key = "a" ∧
      (getNat (SetWithTTL (SetWithTTL (NewLRU 2 : LRU String Int) "a" 1 5
        0).1 "a" 7 3 10).1.nodePool j).value = 7 ∧
      (getNat (SetWithTTL (SetWithTTL (NewLRU 2 : LRU String Int) "a" 1 5
        0).1 "a" 7 3 10).1.nodePool j).expiration =
        (if 0 < (3 : Int) then 10 + 3 else 0) ∧
      (∀ a, a ≠ j → sameData
        (getNat (SetWithTTL (SetWithTTL (NewLRU 2 : LRU String Int) "a" 1 5
          0).1 "a" 7 3 10).1.nodePool a)
        (getNat (SetWithTTL (NewLRU 2 : LRU String Int) "a" 1 5
          0).1.nodePool a)) :=
  C10_set_expired_updates_in_place
    (SetWithTTL (NewLRU 2 : LRU String Int) "a" 1 5 0).1
    (Reach.step_setWithTTL (NewLRU 2) "a" 1 5 0 (Reach.base 2 0 false))
    "a" 7 3 10 0 (by decide) (by decide) (by decide)

/-- Claim C3: for every `maxSize`, inserting `maxSize + 1` distinct keys
into a fresh cache with no intervening reads evicts exactly the
first-inserted key: it is absent, every later key is present, and the count
is back at `maxSize`. -/
theorem C3_eviction_order {ms : Nat} (hms : 1 ≤ ms) (ks : Nat → K)
    (vs : Nat → V) (hdist : ∀ i j : Nat, i ≠ j → ks i ≠ ks j) (now : Int) :
    Has (setSeq ks vs now (NewLRU (ms : Int)) (ms + 1)) (ks 0) now = false ∧
    (∀ j : Nat, 1 ≤ j → j ≤ ms →
      Has (setSeq ks vs now (NewLRU (ms : Int)) (ms + 1)) (ks j) now =
        true) ∧
    Len (setSeq ks vs now (NewLRU (ms : Int)) (ms + 1)) = (ms : Int) := by
  obtain ⟨m, rfl⟩ : ∃ m, ms = m + 1 := ⟨ms - 1, by omega⟩
  obtain ⟨frep, fm, fsz, fms, fdt, flen, fpc⟩ :=
    setSeq_fill hms ks vs hdist now (m + 1) le_rfl
  have hr : (List.range (m + 1)).reverse =
      ((List.range m).map (fun x => x + 1)).reverse ++ [0] := by
    rw [List.range_succ_eq_map, List.reverse_cons]
  have frep' : Represents (setSeq ks vs now (NewLRU ((m + 1 : Nat) : Int))
      (m + 1)) (((List.range m).map (fun x => x + 1)).reverse ++ [0]) [] :=
    by
    rw [← hr]
    exact frep
  have hnew : mLoad (setSeq ks vs now (NewLRU ((m + 1 : Nat) : Int))
      (m + 1)).m (ks (m + 1)) = none := by
    refine frep.mLoad_none ?_
    intro j hj
    have hji : j < m + 1 := by simpa using hj
    rw [(fm j hji).2.1]
    exact hdist j (m + 1) (by omega)
  have hstep : setSeq ks vs now (NewLRU ((m + 1 : Nat) : Int)) (m + 1 + 1) =
      (setInsert (setSeq ks vs now (NewLRU ((m + 1 : Nat) : Int)) (m + 1))
        (ks (m + 1)) (vs (m + 1)) 0).1 := by
    show (Set (setSeq ks vs now (NewLRU ((m + 1 : Nat) : Int)) (m + 1))
      (ks (m + 1)) (vs (m + 1)) now).1 = _
    unfold Set
    rw [SetWithTTL_none_eq (ks (m + 1)) (vs (m + 1)) _ now hnew, fdt]
    simp
  have hfull : (setSeq ks vs now (NewLRU ((m + 1 : Nat) : Int))
      (m + 1)).size = (setSeq ks vs now (NewLRU ((m + 1 : Nat) : Int))
      (m + 1)).maxSize := by
    rw [fsz, fms]
  have hmax : 1 ≤ (setSeq ks vs now (NewLRU ((m + 1 : Nat) : Int))
      (m + 1)).maxSize := by
    rw [fms]
    omega
  obtain ⟨ho, hev⟩ := setInsert_evict frep' hfull hmax (ks (m + 1))
    (vs (m + 1)) 0 hnew
  obtain ⟨orep, om, osz, oms, odt, ooe, opc, olen, okk, ovv, oee, odat⟩ :=
    ho
  have h0key : (getNat (setSeq ks vs now (NewLRU ((m + 1 : Nat) : Int))
      (m + 1)).nodePool 0).key = ks 0 := (fm 0 (by omega)).2.1
  rw [hstep]
  refine ⟨?_, ?_, ?_⟩
  · refine Has_none _ now ?_
    rw [om, mLoad_mStore, if_neg (hdist (m + 1) 0 (by omega)), h0key,
      mLoad_mDelete_self]
  · intro j h1 h2
    by_cases hjm : j = m + 1
    · subst hjm
      have hml' : mLoad (setInsert (setSeq ks vs now
          (NewLRU ((m + 1 : Nat) : Int)) (m + 1)) (ks (m + 1)) (vs (m + 1))
          0).1.m (ks (m + 1)) = some ((0 : Nat) : Int) := by
        rw [om, mLoad_mStore_self]
      refine Has_true orep (ks (m + 1)) now hml' ?_
      have htn : (((0 : Nat) : Int)).toNat = 0 := by simp
      rw [htn, oee]
      simp
    · have hjlt : j < m + 1 := by omega
      have hj0 : j ≠ 0 := by omega
      have hsame := odat j hj0
      have hkne : ks j ≠ (getNat (setSeq ks vs now
          (NewLRU ((m + 1 : Nat) : Int)) (m + 1)).nodePool 0).key := by
        rw [h0key]
        exact hdist j 0 (by omega)
      have hml' : mLoad (setInsert (setSeq ks vs now
          (NewLRU ((m + 1 : Nat) : Int)) (m + 1)) (ks (m + 1)) (vs (m + 1))
          0).1.m (ks j) = some ((j : Nat) : Int) := by
        rw [om, mLoad_mStore, if_neg (hdist (m + 1) j
          (fun e => hjm e.symm)), mLoad_mDelete, if_neg hkne]
        exact (fm j hjlt).1
      refine Has_true orep (ks j) now hml' ?_
      have htn : (((j : Nat) : Int)).toNat = j := by simp
      rw [htn, hsame.2.2, (fm j hjlt).2.2]
      simp
  · show (setInsert (setSeq ks vs now (NewLRU ((m + 1 : Nat) : Int))
      (m + 1)) (ks (m + 1)) (vs (m + 1)) 0).1.size = ((m + 1 : Nat) : Int)
    rw [osz]
    simp only [List.length_reverse, List.length_map, List.length_range]
    push_cast
    ring

/-- Instance of claim C3 at `maxSize = 1` with the identity key sequence. -/
theorem C3_eviction_order_witness :
    Has (setSeq (fun n : Nat => n) (fun n : Nat => n) 0
      (NewLRU ((1 : Nat) : Int)) (1 + 1)) 0 0 = false ∧
    (∀ j : Nat, 1 ≤ j → j ≤ 1 →
      Has (setSeq (fun n : Nat => n) (fun n : Nat => n) 0
        (NewLRU ((1 : Nat) : Int)) (1 + 1)) j 0 = true) ∧
    Len (setSeq (fun n : Nat => n) (fun n : Nat => n) 0
      (NewLRU ((1 : Nat) : Int)) (1 + 1)) = ((1 : Nat) : Int) :=
  C3_eviction_order (by decide) (fun n => n) (fun n => n)
    (fun i j hij e => hij e) 0

/-- Claim C5: after `SetWithTTL(k, v, d)` with `d > 0` on a never-resized
cache (at a non-negative timestamp), `Get k` at or before the expiration
instant `now + d` returns `(v, true)`; strictly after it, `Get k` returns
not-found and removes the node — the index entry is gone, the size drops by
one, and the slot moved to the free list — so a subsequent `PurgeExpired`
counts only entries of the remaining chain, which no longer contains `k`'s
slot, and still reports `k` absent (no double-count). -/
theorem C5_ttl_correctness (maxSize ttl0 : Int) (onEv : Bool)
    (ops : List (SetOp K V)) (k : K) (v : V) (d now : Int) (hd : 0 < d)
    (hnow : 0 ≤ now) :
    (∀ t : Int, t ≤ now + d → (Get (SetWithTTL (applySeq (NewLRUWithConfig maxSize ttl0 onEv) ops) k v d now).1 k t).2 = (v, true)) ∧
    (∀ t : Int, now + d < t →
      (Get (SetWithTTL (applySeq (NewLRUWithConfig maxSize ttl0 onEv) ops) k v d now).1 k t).2 = (default, false) ∧
      mLoad (Get (SetWithTTL (applySeq (NewLRUWithConfig maxSize ttl0 onEv) ops) k v d now).1 k t).1.m k = none ∧
      (Get (SetWithTTL (applySeq (NewLRUWithConfig maxSize ttl0 onEv) ops) k v d now).1 k t).1.size = (SetWithTTL (applySeq (NewLRUWithConfig maxSize ttl0 onEv) ops) k v d now).1.size - 1 ∧
      (∃ (j : Nat) (cR fR : List Nat),
        Represents (Get (SetWithTTL (applySeq (NewLRUWithConfig maxSize ttl0 onEv) ops) k v d now).1 k t).1 cR (j :: fR) ∧
        j ∉ cR ∧
        (PurgeExpired (Get (SetWithTTL (applySeq (NewLRUWithConfig maxSize ttl0 onEv) ops) k v d now).1 k t).1 t).2.1 =
          (cR.length : Int) - ((cR.filter (purgeKeep
            (Get (SetWithTTL (applySeq (NewLRUWithConfig maxSize ttl0 onEv) ops) k v d now).1 k t).1.nodePool t)).length : Int) ∧
        (PurgeExpired (Get (SetWithTTL (applySeq (NewLRUWithConfig maxSize ttl0 onEv) ops) k v d now).1 k t).1 t).1.size =
          (Get (SetWithTTL (applySeq (NewLRUWithConfig maxSize ttl0 onEv) ops) k v d now).1 k t).1.size - (PurgeExpired (Get (SetWithTTL (applySeq (NewLRUWithConfig maxSize ttl0 onEv) ops) k v d now).1 k t).1 t).2.1 ∧
        mLoad (PurgeExpired (Get (SetWithTTL (applySeq (NewLRUWithConfig maxSize ttl0 onEv) ops) k v d now).1 k t).1 t).1.m k = none)) := by
  have hw := applySeq_wfcap ops (NewLRUWithConfig maxSize ttl0 onEv)
    (NewLRUWithConfig_wfcap maxSize ttl0 onEv)
  obtain ⟨w, cR0, fR0, srep, sml, skey, sval, sexp⟩ :=
    SetWithTTL_present hw k v d now
  rw [if_pos hd] at sexp
  have htn : (((w : Nat) : Int)).toNat = w := by simp
  constructor
  · intro t ht
    have hlive : ¬(0 < (getNat (SetWithTTL (applySeq (NewLRUWithConfig maxSize ttl0 onEv) ops) k v d now).1.nodePool
        (((w : Nat) : Int)).toNat).expiration ∧
        (getNat (SetWithTTL (applySeq (NewLRUWithConfig maxSize ttl0 onEv) ops) k v d now).1.nodePool (((w : Nat) : Int)).toNat).expiration < t) :=
      by
      rw [htn, sexp]
      rintro ⟨h1, h2⟩
      omega
    obtain ⟨j, c₁, c₂, hjx, hc, grep, gm, gsz, gfl, gms, gdt, goe, gpc,
      glen, gdata, gres⟩ := Get_hit_rep srep k t sml hlive
    have hjw : j = w := Nat.cast_injective hjx
    subst hjw
    rw [gres, sval]
  · intro t ht
    have hexp : 0 < (getNat (SetWithTTL (applySeq (NewLRUWithConfig maxSize ttl0 onEv) ops) k v d now).1.nodePool
        (((w : Nat) : Int)).toNat).expiration ∧
        (getNat (SetWithTTL (applySeq (NewLRUWithConfig maxSize ttl0 onEv) ops) k v d now).1.nodePool (((w : Nat) : Int)).toNat).expiration < t := by
      rw [htn, sexp]
      constructor <;> omega
    obtain ⟨j, c₁, c₂, hjx, hc, grep, gm, gsz, gms, gdt, goe, gpc, glen,
      gdata, gres⟩ := Get_expired_rep srep k t sml hexp
    have hmlG : mLoad (Get (SetWithTTL (applySeq (NewLRUWithConfig maxSize ttl0 onEv) ops) k v d now).1 k t).1.m k = none := by
      rw [gm, mLoad_mDelete_self]
    refine ⟨gres, hmlG, gsz, j, c₁ ++ c₂, fR0, grep, ?_, ?_⟩
    · have hnd := srep.chain_nodup
      rw [hc] at hnd
      obtain ⟨nd1, nd2, disj⟩ := List.nodup_append.mp hnd
      intro hm
      rcases List.mem_append.mp hm with hm | hm
      · exact disj hm (by simp)
      · exact (List.nodup_cons.mp nd2).1 hm
    · obtain ⟨fP, prep, psz, pcnt, pms, pdt, poe, ppc, plen, pm⟩ :=
        PurgeExpired_spec grep t
      exact ⟨pcnt, psz, pm k hmlG⟩

/-- Instance of claim C5 at a concrete cache, key and times. -/
theorem C5_ttl_correctness_witness :
    (Get (SetWithTTL (applySeq (NewLRUWithConfig 2 0 false : LRU String Int) []) "a" 1 5 0).1 "a" 3).2 = ((1 : Int), true) ∧
    mLoad (Get (SetWithTTL (applySeq (NewLRUWithConfig 2 0 false : LRU String Int) []) "a" 1 5 0).1 "a" 10).1.m "a" = none :=
  ⟨(C5_ttl_correctness 2 0 false [] "a" 1 5 0 (by decide) (by decide)).1 3
    (by decide),
   ((C5_ttl_correctness 2 0 false [] "a" 1 5 0 (by decide) (by decide)).2
    10 (by decide)).2.1⟩


end Mappo
